import Mathlib

/-!
Shallow embedding of `src/utils.ts` from `api-ref-bundler` (the second,
current half of the bundled file): POSIX-style path normalization, JSON
reference and JSON pointer parsing/building, and path-addressed tree
operations, together with proofs of the specified properties.

JS strings are modelled as Lean `String`/`List Char` (sequences of Unicode
scalar values).  JS exceptions (`URIError` from `decodeURIComponent`,
`TypeError` from property access on `null` and from strict-mode writes to
primitives) are modelled with `Except Unit`.  The JS `undefined` sentinel is
`Option.none`.
-/


namespace RefBundler

/-- Source: `const SLASH = 47`. -/
def SLASH : Nat := 47

/-- Source: `const DOT = 46`. -/
def DOT : Nat := 46

/-- JS `str.split(sep)` for a one-character separator: splits on every
occurrence of `sep`; splitting the empty string yields `[""]`. -/
def splitChar (sep : Char) : List Char → List (List Char)
  | [] => [[]]
  | c :: rest =>
    if c = sep then [] :: splitChar sep rest
    else
      match splitChar sep rest with
      | s :: ss => (c :: s) :: ss
      | [] => [[c]]

/-- JS `array.join("/")`. -/
def joinSlash : List (List Char) → List Char
  | [] => []
  | [s] => s
  | s :: rest => s ++ '/' :: joinSlash rest

/-- JS `str.lastIndexOf(c)`: largest index holding `c`, `-1` when absent. -/
def jsLastIndexOf (l : List Char) (c : Char) : Int :=
  match l with
  | [] => -1
  | x :: rest =>
    let r := jsLastIndexOf rest c
    if 0 ≤ r then r + 1
    else if x = c then 0
    else -1

/-- Generic concat-map used to model per-character string expansion. -/
def concatMap {α β : Type} (f : α → List β) : List α → List β
  | [] => []
  | x :: rest => f x ++ concatMap f rest

/-- Value of a hexadecimal digit (both cases), `none` otherwise. -/
def hexVal (c : Char) : Option Nat :=
  if 48 ≤ c.toNat ∧ c.toNat ≤ 57 then some (c.toNat - 48)
  else if 65 ≤ c.toNat ∧ c.toNat ≤ 70 then some (c.toNat - 55)
  else if 97 ≤ c.toNat ∧ c.toNat ≤ 102 then some (c.toNat - 87)
  else none

/-- Upper-case hexadecimal digit for `n < 16` (as emitted by
`encodeURIComponent`). -/
def toHexDigit (n : Nat) : Char :=
  if n < 10 then Char.ofNat (48 + n) else Char.ofNat (55 + n)

/-- Position inside a `%XY` escape: the hex pair being read is either the
leading byte of a UTF-8 sequence or one of `rem` still-expected
continuation bytes of a sequence whose value so far is `v` and whose
smallest non-overlong value is `minV`. -/
inductive EscK where
  | lead
  | contK (rem : Nat) (v : Nat) (minV : Nat)
deriving DecidableEq

/-- Scanner state for ECMA-262 `Decode`. -/
inductive DecState where
  | plain
  | hexHi (k : EscK)
  | hexLo (k : EscK) (hi : Nat)
  | needPct (rem : Nat) (v : Nat) (minV : Nat)
deriving DecidableEq

/-- ECMA-262 `Decode` as used by `decodeURIComponent`, consuming one
character per step: every `%XY` escape is decoded, and the escaped octets
must form a strict UTF-8 encoding of a Unicode scalar value (no truncated
escapes, no stray continuation bytes, no overlong sequences, no
surrogates, nothing above `0x10FFFF`), otherwise a `URIError` is thrown,
modelled as `Except.error ()`. -/
def decodeSM : DecState → List Char → Except Unit (List Char)
  | .plain, [] => .ok []
  | .plain, c :: rest =>
    if c = '%' then decodeSM (.hexHi .lead) rest
    else
      match decodeSM .plain rest with
      | .ok tail => .ok (c :: tail)
      | .error e => .error e
  | .hexHi _, [] => .error ()
  | .hexHi k, c :: rest =>
    match hexVal c with
    | some d => decodeSM (.hexLo k d) rest
    | none => .error ()
  | .hexLo _ _, [] => .error ()
  | .hexLo .lead hi, c :: rest =>
    match hexVal c with
    | some lo =>
      let B := 16 * hi + lo
      if B < 0x80 then
        match decodeSM .plain rest with
        | .ok tail => .ok (Char.ofNat B :: tail)
        | .error e => .error e
      else if B < 0xC0 then .error ()
      else if B < 0xE0 then decodeSM (.needPct 1 (B - 0xC0) 0x80) rest
      else if B < 0xF0 then decodeSM (.needPct 2 (B - 0xE0) 0x800) rest
      else if B < 0xF8 then decodeSM (.needPct 3 (B - 0xF0) 0x10000) rest
      else .error ()
    | none => .error ()
  | .hexLo (.contK rem v minV) hi, c :: rest =>
    match hexVal c with
    | some lo =>
      let B := 16 * hi + lo
      if 0x80 ≤ B ∧ B < 0xC0 then
        match rem with
        | 1 =>
          if v * 0x40 + (B - 0x80) < minV then .error ()
          else if 0xD800 ≤ v * 0x40 + (B - 0x80) ∧ v * 0x40 + (B - 0x80) < 0xE000 then
            .error ()
          else if 0x10FFFF < v * 0x40 + (B - 0x80) then .error ()
          else
            match decodeSM .plain rest with
            | .ok tail => .ok (Char.ofNat (v * 0x40 + (B - 0x80)) :: tail)
            | .error e => .error e
        | rem2 + 2 => decodeSM (.needPct (rem2 + 1) (v * 0x40 + (B - 0x80)) minV) rest
        | 0 => .error ()
      else .error ()
    | none => .error ()
  | .needPct _ _ _, [] => .error ()
  | .needPct rem v minV, c :: rest =>
    if c = '%' then decodeSM (.hexHi (.contK rem v minV)) rest else .error ()

/-- `Decode` of a whole string starts and must end in the `plain` state. -/
def decodeURIComponentList (l : List Char) : Except Unit (List Char) :=
  decodeSM .plain l

/-- JS `decodeURIComponent`. -/
def decodeURIComponent (s : String) : Except Unit String :=
  (decodeURIComponentList s.toList).map String.mk

/-- The characters `encodeURIComponent` leaves unescaped:
`A-Z a-z 0-9 - _ . ! ~ * ' ( )`. -/
def uriUnescaped (c : Char) : Bool :=
  (65 ≤ c.toNat && c.toNat ≤ 90) || (97 ≤ c.toNat && c.toNat ≤ 122) ||
    (48 ≤ c.toNat && c.toNat ≤ 57) ||
    c == '-' || c == '_' || c == '.' || c == '!' || c == '~' || c == '*' ||
    c == Char.ofNat 39 || c == '(' || c == ')'

/-- UTF-8 octets of a Unicode scalar value. -/
def utf8Bytes (c : Char) : List Nat :=
  if c.toNat < 0x80 then [c.toNat]
  else if c.toNat < 0x800 then [0xC0 + c.toNat / 0x40, 0x80 + c.toNat % 0x40]
  else if c.toNat < 0x10000 then
    [0xE0 + c.toNat / 0x1000, 0x80 + c.toNat / 0x40 % 0x40, 0x80 + c.toNat % 0x40]
  else
    [0xF0 + c.toNat / 0x40000, 0x80 + c.toNat / 0x1000 % 0x40,
      0x80 + c.toNat / 0x40 % 0x40, 0x80 + c.toNat % 0x40]

/-- `%XY` escape of one octet (upper-case hex, as JS emits). -/
def pctEncodeByte (b : Nat) : List Char :=
  ['%', toHexDigit (b / 16), toHexDigit (b % 16)]

/-- JS `encodeURIComponent` on a character list.  (JS throws on lone
surrogates; Lean strings contain only scalar values, so that branch cannot
arise here.) -/
def encodeURIComponentList (l : List Char) : List Char :=
  concatMap (fun c => if uriUnescaped c then [c] else concatMap pctEncodeByte (utf8Bytes c)) l

/-- JS `str.replace(/pat/g, rep)` for a literal pattern: scans left to
right and never rescans replaced text.  `skip` counts pattern characters
still to be consumed after a match. -/
def jsReplaceAllAux (pat rep : List Char) : Nat → List Char → List Char
  | _, [] => []
  | 0, c :: rest =>
    if pat.isPrefixOf (c :: rest) then rep ++ jsReplaceAllAux pat rep (pat.length - 1) rest
    else c :: jsReplaceAllAux pat rep 0 rest
  | skip + 1, _ :: rest => jsReplaceAllAux pat rep skip rest

/-- JS `str.replace(/pat/g, rep)` (literal pattern). -/
def jsReplaceAll (s pat rep : List Char) : List Char :=
  jsReplaceAllAux pat rep 0 s

/-- The `..`-handling tail of the `code === SLASH` branch of
`posixNormalize`: the `if (allowAboveRoot)` block reached when no inner
`continue` fired.  Returns the new `res` and `lastSegmentLength`. -/
def dotdotAppend (allowAboveRoot : Bool) (res : List Char) (lastSegmentLength : Nat) :
    List Char × Nat :=
  if allowAboveRoot then
    (if 0 < res.length then res ++ ['/', '.', '.'] else ['.', '.'], 2)
  else (res, lastSegmentLength)

/-- The `code === SLASH` branch of the loop body of `posixNormalize`,
acting on `res` and `lastSegmentLength`.  `seg` is the slice
`path.slice(lastSlash + 1, i)` (so `seg = []` is `lastSlash === i - 1`) and
`dots` is the source's `dots` counter for that slice. -/
def slashStep (allowAboveRoot : Bool) (res : List Char) (lastSegmentLength : Nat)
    (seg : List Char) (dots : Int) : List Char × Nat :=
  if seg = [] ∨ dots = 1 then (res, lastSegmentLength)
  else if dots = 2 then
    if res.length < 2 ∨ lastSegmentLength ≠ 2 ∨
        res.getLast? ≠ some '.' ∨ res.dropLast.getLast? ≠ some '.' then
      if 2 < res.length then
        if jsLastIndexOf res '/' ≠ (res.length : Int) - 1 then
          if jsLastIndexOf res '/' = -1 then ([], 0)
          else
            (res.take (jsLastIndexOf res '/').toNat,
              (((res.take (jsLastIndexOf res '/').toNat).length : Int) - 1 -
                jsLastIndexOf (res.take (jsLastIndexOf res '/').toNat) '/').toNat)
        else dotdotAppend allowAboveRoot res lastSegmentLength
      else if res.length = 2 ∨ res.length = 1 then ([], 0)
      else dotdotAppend allowAboveRoot res lastSegmentLength
    else dotdotAppend allowAboveRoot res lastSegmentLength
  else
    if 0 < res.length then (res ++ '/' :: seg, seg.length)
    else (seg, seg.length)

/-- The scanning loop of `posixNormalize` (taken by the source "directly
from node source").  One recursive step per character; the iteration at
`i = path.length` with its virtual closing slash (or `break` after a real
trailing slash) is the `[]` case.  `code` is the previous character's code,
`none` before the first iteration.  JS indexes UTF-16 code units while this
walks scalar values; the loop only compares against `/` and `.` and copies
slices whole, so the two views agree. -/
def posixLoop (allowAboveRoot : Bool) : List Char → List Char → Nat → List Char → Int →
    Option Nat → List Char
  | [], res, lastSegmentLength, seg, dots, code =>
    if code = some SLASH then res
    else (slashStep allowAboveRoot res lastSegmentLength seg dots).1
  | c :: rest, res, lastSegmentLength, seg, dots, _ =>
    if c.toNat = SLASH then
      posixLoop allowAboveRoot rest
        (slashStep allowAboveRoot res lastSegmentLength seg dots).1
        (slashStep allowAboveRoot res lastSegmentLength seg dots).2 [] 0 (some SLASH)
    else if c.toNat = DOT ∧ dots ≠ -1 then
      posixLoop allowAboveRoot rest res lastSegmentLength (seg ++ [c]) (dots + 1) (some c.toNat)
    else
      posixLoop allowAboveRoot rest res lastSegmentLength (seg ++ [c]) (-1) (some c.toNat)

/-- `posixNormalize` from the source. -/
def posixNormalize (path : String) (allowAboveRoot : Bool) : String :=
  String.mk (posixLoop allowAboveRoot path.toList [] 0 [] 0 none)

/-- `normalize` from the source.  The absoluteness and trailing-separator
flags are read from the raw input; the body is percent-decoded and then
collapsed.  The source wraps the decode in `try … finally` with no `catch`:
on a malformed escape the `finally` block still runs `posixNormalize` on the
raw path, but its result is discarded because the `URIError` propagates to
the caller once the `finally` block completes, so the call's outcome is the
error. -/
def normalize (p : String) : Except Unit String :=
  if p.length = 0 then .ok "."
  else
    let isAbsolute := (p.toList.head?.map Char.toNat) = some SLASH
    let trailingSeparator := (p.toList.getLast?.map Char.toNat) = some SLASH
    match decodeURIComponent p with
    | .error e => .error e
    | .ok dec =>
      let path1 := posixNormalize dec (!isAbsolute)
      let path2 := if path1.length = 0 ∧ ¬isAbsolute then "." else path1
      let path3 := if 0 < path2.length ∧ trailingSeparator then path2 ++ "/" else path2
      if isAbsolute then .ok ("/" ++ path3) else .ok path3

/-- A `PathItem` / `ObjPath` element: JS `string | number` (only integral
numbers are used by the source's callers). -/
inductive Key where
  | str (s : String)
  | num (n : Int)
deriving DecidableEq

/-- JS `String(i)`. -/
def keyToString : Key → String
  | .str s => s
  | .num n => toString n

/-- One token of `parsePointer`:
`decodeURIComponent(i.replace(/~1/g, "/").replace(/~0/g, "~"))`. -/
def parsePointerToken (l : List Char) : Except Unit (List Char) :=
  decodeURIComponentList (jsReplaceAll (jsReplaceAll l ['~', '1'] ['/']) ['~', '0'] ['~'])

/-- JS `array.map(f)` for a fallible `f`: left to right, first throw wins. -/
def mapExcept {α β : Type} (f : α → Except Unit β) : List α → Except Unit (List β)
  | [] => .ok []
  | x :: rest =>
    match f x with
    | .error e => .error e
    | .ok y =>
      match mapExcept f rest with
      | .error e => .error e
      | .ok ys => .ok (y :: ys)

/-- `parsePointer` from the source: split on `/`, unescape and decode every
part (including the part before the leading slash), then drop the first
part (`slice(1)`). -/
def parsePointer (pointer : String) : Except Unit (List String) :=
  match mapExcept (fun i =>
      match parsePointerToken i with
      | .error e => .error e
      | .ok l => .ok (String.mk l)) (splitChar '/' pointer.toList) with
  | .error e => .error e
  | .ok decoded => .ok (decoded.drop 1)

/-- One token of `buildPointer`:
`encodeURIComponent(String(i).replace(/~/g, "~0").replace(/\//g, "~1"))`. -/
def buildPointerToken (k : Key) : List Char :=
  encodeURIComponentList
    (jsReplaceAll (jsReplaceAll (keyToString k).toList ['~'] ['~', '0']) ['/'] ['~', '1'])

/-- `buildPointer` from the source. -/
def buildPointer (path : List Key) : String :=
  match path with
  | [] => ""
  | _ => String.mk ('/' :: joinSlash (path.map buildPointerToken))

/-- `buildRef` from the source. -/
def buildRef (path : List Key) (fileName : String := "") : String :=
  if path.isEmpty then (if fileName = "" then "#" else fileName)
  else fileName ++ "#" ++ buildPointer path

/-- ASCII lower-casing: the effect of the regex's `i` flag on its
`a-z` classes. -/
def asciiLower (c : Char) : Char :=
  if 65 ≤ c.toNat ∧ c.toNat ≤ 90 then Char.ofNat (c.toNat + 32) else c

def isDigitC (c : Char) : Bool := 48 ≤ c.toNat && c.toNat ≤ 57

def isLowerC (c : Char) : Bool := 97 ≤ c.toNat && c.toNat ≤ 122

def isAlnumC (c : Char) : Bool := isDigitC c || isLowerC c

/-- One domain label: `[a-z\d]([a-z\d-]*[a-z\d])*`, i.e. a nonempty
alphanumeric-and-dash string beginning and ending alphanumeric. -/
def isLabel (l : List Char) : Bool :=
  !l.isEmpty && l.all (fun x => isAlnumC x || x == '-') &&
    (match l.head? with | some c => isAlnumC c | none => false) &&
    (match l.getLast? with | some c => isAlnumC c | none => false)

/-- Host alternative 1: `(([a-z\d]([a-z\d-]*[a-z\d])*)\.)+[a-z]{2,}`. -/
def isDomain (host : List Char) : Bool :=
  let parts := splitChar '.' host
  match parts.getLast? with
  | none => false
  | some tld =>
    2 ≤ parts.length && 2 ≤ tld.length && tld.all isLowerC && parts.dropLast.all isLabel

/-- Host alternative 2: `(\d{1,3}\.){3}\d{1,3}`. -/
def isIPv4 (host : List Char) : Bool :=
  let parts := splitChar '.' host
  parts.length = 4 && parts.all (fun p => !p.isEmpty && p.length ≤ 3 && p.all isDigitC)

def hostChar (c : Char) : Bool := isAlnumC c || c == '.' || c == '-'

/-- Path-segment character class `[-a-z\d%_.~+]`. -/
def pathSegChar (c : Char) : Bool :=
  isAlnumC c || c == '-' || c == '%' || c == '_' || c == '.' || c == '~' || c == '+'

/-- Query character class `[;&a-z\d%_.~+=-]`. -/
def queryChar (c : Char) : Bool :=
  pathSegChar c || c == ';' || c == '&' || c == '='

/-- Fragment character class `[-a-z\d_]`. -/
def fragChar (c : Char) : Bool := isAlnumC c || c == '-' || c == '_'

/-- States of the tail matcher for
`(\:\d+)?(\/[-a-z\d%_.~+]*)*(\?[…]*)?(\#[…]*)?$`. -/
inductive UrlState where
  | afterHost
  | portFirst
  | portRest
  | inPath
  | inQuery
  | inFrag
deriving DecidableEq

/-- Deterministic matcher for the part of the `validURL` regex after the
host (the character classes of consecutive parts are disjoint at every
branch point, so the regex admits no backtracking ambiguity there). -/
def urlTail : UrlState → List Char → Bool
  | s, [] => s ≠ UrlState.portFirst
  | .afterHost, c :: rest =>
    if c == ':' then urlTail .portFirst rest
    else if c == '/' then urlTail .inPath rest
    else if c == '?' then urlTail .inQuery rest
    else if c == '#' then urlTail .inFrag rest
    else false
  | .portFirst, c :: rest => isDigitC c && urlTail .portRest rest
  | .portRest, c :: rest =>
    if isDigitC c then urlTail .portRest rest
    else if c == '/' then urlTail .inPath rest
    else if c == '?' then urlTail .inQuery rest
    else if c == '#' then urlTail .inFrag rest
    else false
  | .inPath, c :: rest =>
    if c == '/' || pathSegChar c then urlTail .inPath rest
    else if c == '?' then urlTail .inQuery rest
    else if c == '#' then urlTail .inFrag rest
    else false
  | .inQuery, c :: rest =>
    if queryChar c then urlTail .inQuery rest
    else if c == '#' then urlTail .inFrag rest
    else false
  | .inFrag, c :: rest => fragChar c && urlTail .inFrag rest

/-- `validURL` from the source, a matcher for its anchored regex
`^(https?:\/\/)(domain|ipv4)(:port)?(path)*(query)?(fragment)?$` with the
`i` flag.  The host is the maximal run of `[a-z\d.-]` characters after the
scheme: no character that may follow the host alternatives belongs to that
class, so every successful regex match takes exactly this run. -/
def validURLList (l : List Char) : Bool :=
  match l with
  | 'h' :: 't' :: 't' :: 'p' :: rest =>
    let rest2 := match rest with
      | 's' :: r => r
      | r => r
    match rest2 with
    | ':' :: '/' :: '/' :: rest3 =>
      let host := rest3.takeWhile hostChar
      let tail := rest3.drop host.length
      !host.isEmpty && (isDomain host || isIPv4 host) && urlTail .afterHost tail
    | _ => false
  | _ => false

/-- `validURL(str)`. -/
def validURL (s : String) : Bool :=
  validURLList (s.toList.map asciiLower)

/-- `relativePath` from the source: with a base, the reference path replaces
the final `/`-segment of the base, and the join is normalized. -/
def relativePath (path : String) (basePath : String := "") : Except Unit String :=
  if basePath = "" then normalize path
  else if path = "" then normalize basePath
  else
    let base := splitChar '/' basePath.toList
    normalize (String.mk (joinSlash (base.dropLast ++ [path.toList])))

/-- `createRef` from the source (absent arguments are the empty string,
which is falsy like `undefined`). -/
def createRef (basePath : String := "") (pointer : String := "") : String :=
  if basePath = "" then (if pointer = "" then "#" else "#" ++ pointer)
  else if pointer = "" then basePath else basePath ++ "#" ++ pointer

/-- Result record of `parseRef`. -/
structure RefData where
  filePath : String
  pointer : String
  normalized : String
deriving DecidableEq

/-- `new URL(sourcePath).href` for a string accepted by `validURL`.
Modelled from the spec: the platform WHATWG URL canonicalization ("resolve
it through a standard URL-join … and take its canonical string form") is
not part of this repository; no claim below exercises this branch (every
theorem either supplies a non-URL source path or assumes
`validURL sourcePath = false`), so it is embedded as the identity on the
already absolute URL string. -/
def urlHref (s : String) : String := s

/-- `parseRef` from the source.  `$ref.split("#")` splits on every `#`;
the destructuring `[sourcePath = basePath, ref]` takes the first two parts
(the default only applies to a missing part, and part 0 always exists). -/
def parseRef (ref : String) (basePath : String := "") : Except Unit RefData :=
  let parts := splitChar '#' ref.toList
  let sourcePath := match parts.head? with
    | some s => String.mk s
    | none => basePath
  let frag : Option String := (parts.get? 1).map String.mk
  match (if validURL sourcePath then .ok (urlHref sourcePath)
    else relativePath sourcePath basePath : Except Unit String) with
  | .error e => .error e
  | .ok filePath =>
    let pointer := match frag with
      | none => ""
      | some r => if r = "" ∨ r = "/" then "" else r
    .ok { filePath := filePath, pointer := pointer,
          normalized := createRef filePath pointer }

/-! ### Tree values

The generic mapping/sequence/scalar trees that `getValueByPath`,
`setValueByPath` and `mergeValues` operate on.  Mappings keep their JS
insertion order.  (JS additionally fronts integer-like own keys in
ascending order when enumerating; no value in this development has such
keys in a mapping except the index keys produced by spreading an array,
which are already ascending.) -/

mutual
inductive Json where
  | null
  | bool (b : Bool)
  | num (n : Int)
  | str (s : String)
  | arr (elems : JsonList)
  | obj (fields : JsonFields)
deriving DecidableEq

inductive JsonList where
  | nil
  | cons (head : Json) (tail : JsonList)
deriving DecidableEq

inductive JsonFields where
  | nil
  | cons (key : String) (value : Json) (tail : JsonFields)
deriving DecidableEq
end

/-- Literal helper. -/
def jlist : List Json → JsonList
  | [] => .nil
  | x :: xs => .cons x (jlist xs)

/-- Literal helper. -/
def jfields : List (String × Json) → JsonFields
  | [] => .nil
  | (k, v) :: xs => .cons k v (jfields xs)

/-- JS `typeof x === "object"`: true for mappings, sequences and `null`. -/
def typeofObject : Json → Bool
  | .null => true
  | .arr _ => true
  | .obj _ => true
  | _ => false

/-- `isObject` from the source:
`typeof value === "object" && value !== null` (true for arrays). -/
def isObjectJ : Json → Bool
  | .arr _ => true
  | .obj _ => true
  | _ => false

/-- `Array.isArray`. -/
def isArrayJ : Json → Bool
  | .arr _ => true
  | _ => false

def jlGet : JsonList → Nat → Option Json
  | .nil, _ => none
  | .cons h _, 0 => some h
  | .cons _ t, n + 1 => jlGet t n

def jlLength : JsonList → Nat
  | .nil => 0
  | .cons _ t => jlLength t + 1

def jlAppend : JsonList → JsonList → JsonList
  | .nil, ys => ys
  | .cons h t, ys => .cons h (jlAppend t ys)

/-- First binding of `key` (JS object keys are unique, so this is the
binding). -/
def jfGet : JsonFields → String → Option Json
  | .nil, _ => none
  | .cons k v t, key => if k = key then some v else jfGet t key

/-- JS property assignment on a plain object: an existing key is updated in
place, a new key is appended (insertion order). -/
def jfSet : JsonFields → String → Json → JsonFields
  | .nil, key, x => .cons key x .nil
  | .cons k v t, key, x =>
    if k = key then .cons k x t else .cons k v (jfSet t key x)

/-- JS element assignment on an array, `arr[n] = x` for an index `n`:
in-range indices are replaced; writing past the end lengthens the array.
JS leaves holes (which read back as `undefined`) before a far index; they
are padded with `null` here and are never read by anything below. -/
def jlSet : JsonList → Nat → Json → JsonList
  | .nil, 0, x => .cons x .nil
  | .nil, n + 1, x => .cons Json.null (jlSet .nil n x)
  | .cons _ t, 0, x => .cons x t
  | .cons h t, n + 1, x => .cons h (jlSet t n x)

/-- JS `arr.length = n`: truncates or lengthens (holes padded as in
`jlSet`). -/
def jlResize : JsonList → Nat → JsonList
  | _, 0 => .nil
  | .nil, n + 1 => .cons Json.null (jlResize .nil n)
  | .cons h t, n + 1 => .cons h (jlResize t n)

def digitsValAux (acc : Nat) : List Char → Nat
  | [] => acc
  | c :: rest => digitsValAux (acc * 10 + (c.toNat - 48)) rest

/-- The canonical array-index strings: the property names JS arrays treat
as element indices (`"0"`, `"1"`, …, no leading zeros). -/
def canonicalIndex (s : String) : Option Nat :=
  let l := s.toList
  if l ≠ [] ∧ l.all isDigitC = true ∧ (l.head? = some '0' → l = ['0']) then
    some (digitsValAux 0 l)
  else none

/-- JS `+key` (`ToNumber`) restricted to the shapes that can address an
array element: `+"" = 0`, digit strings (leading zeros allowed) are their
value.  Signed/padded/fractional numerals and everything else convert to
numbers that address no element (or to `NaN`) and are modelled as `none`,
which reads as `undefined` below, like in JS. -/
def jsToNumber (s : String) : Option Int :=
  let l := s.toList
  if l = [] then some 0
  else if l.all isDigitC = true then some (digitsValAux 0 l)
  else none

def keyToNumber : Key → Option Int
  | .num n => some n
  | .str s => jsToNumber s

/-- Own-property read of a JS string primitive: canonical element indices
and `length`.  (JS indexes UTF-16 code units; scalar values here — the
difference is observable only through astral characters, which nothing
below exercises.) -/
def strProp (s : String) (key : String) : Option Json :=
  if key = "length" then some (.num s.length)
  else
    match canonicalIndex key with
    | some n =>
      match s.toList.get? n with
      | some c => some (.str (String.mk [c]))
      | none => none
    | none => none

/-- One step of the `getValueByPath` loop:
`Array.isArray(value) ? value[+key] : value[key]`.  Property access on
`null` throws a `TypeError`; reads on other scalars yield their own
properties (absent for numbers and booleans — prototype members are
outside the tree-value domain and read as absent). -/
def jsGet (v : Json) (k : Key) : Except Unit (Option Json) :=
  match v with
  | .arr xs =>
    .ok (match keyToNumber k with
      | some n => if 0 ≤ n then jlGet xs n.toNat else none
      | none => none)
  | .obj fs => .ok (jfGet fs (keyToString k))
  | .null => .error ()
  | .str s => .ok (strProp s (keyToString k))
  | .num _ => .ok none
  | .bool _ => .ok none

/-- The `for (const key of path)` loop of `getValueByPath`: `none` is the
source's `undefined`, on which the loop breaks. -/
def getLoop : Option Json → List Key → Except Unit (Option Json)
  | v, [] => .ok v
  | none, _ :: _ => .ok none
  | some v, k :: rest =>
    match jsGet v k with
    | .error e => .error e
    | .ok v2 => getLoop v2 rest

/-- `getValueByPath` from the source. -/
def getValueByPath (obj : Json) (path : List Key) : Except Unit (Option Json) :=
  getLoop (some obj) path

/-- Property read as performed by `setValueByPath` (`obj[key]` with no
`+key` coercion, so arrays only respond to canonical index strings and
`length`). -/
def jsPropGet (v : Json) (k : Key) : Except Unit (Option Json) :=
  match v with
  | .null => .error ()
  | .arr xs =>
    let ks := keyToString k
    if ks = "length" then .ok (some (.num (jlLength xs)))
    else
      .ok (match canonicalIndex ks with
        | some n => jlGet xs n
        | none => none)
  | .obj fs => .ok (jfGet fs (keyToString k))
  | .str s => .ok (strProp s (keyToString k))
  | .num _ => .ok none
  | .bool _ => .ok none

/-- Property write as performed by `setValueByPath`.  Strict-mode JS:
writing a property of `null` or of a primitive throws a `TypeError`;
`arr.length = x` throws unless `x` is a valid length.  Writing a
non-index, non-`length` key on an array attaches an own property that the
sequence model cannot represent; it is dropped here and nothing below
observes it. -/
def jsPropSet (v : Json) (k : Key) (x : Json) : Except Unit Json :=
  match v with
  | .obj fs => .ok (.obj (jfSet fs (keyToString k) x))
  | .arr xs =>
    let ks := keyToString k
    if ks = "length" then
      match x with
      | .num n => if 0 ≤ n then .ok (.arr (jlResize xs n.toNat)) else .error ()
      | _ => .error ()
    else
      match canonicalIndex ks with
      | some n => .ok (.arr (jlSet xs n x))
      | none => .ok (.arr xs)
  | _ => .error ()

/-- The recursion of `setValueByPath` over the path suffix `path.slice(i)`
(the source advances an index `i` over a fixed `path`; the suffix view is
the same traversal).  Follows the source's order of effects: read
`obj[key]`, coerce a non-object-typed value to `{}` (an in-place write),
then either write `value` at the final key or recurse into `obj[key]` —
the write-back of the recursed child is the source's in-place mutation of
`obj[key]`.  `typeof null === "object"`, so a `null` on the path is not
coerced and the recursion then throws reading a property of `null`. -/
def setGo : Json → List Key → Json → Except Unit Json
  | obj, [], _ => .ok obj
  | obj, key :: rest, value =>
    match jsPropGet obj key with
    | .error e => .error e
    | .ok copt =>
      let needCoerce := match copt with
        | some j => !typeofObject j
        | none => true
      match (if needCoerce then jsPropSet obj key (Json.obj .nil) else .ok obj) with
      | .error e => .error e
      | .ok obj1 =>
        if rest.isEmpty then jsPropSet obj1 key value
        else
          let child := match copt with
            | some j => if typeofObject j then j else Json.obj .nil
            | none => Json.obj .nil
          match setGo child rest value with
          | .error e => .error e
          | .ok child2 => jsPropSet obj1 key child2

/-- `setValueByPath` from the source. -/
def setValueByPath (obj : Json) (path : List Key) (value : Json) (i : Nat := 0) :
    Except Unit Json :=
  setGo obj (path.drop i) value

/-- Spread `{...value}` of an array: its indices become string keys. -/
def indexFieldsFrom (i : Nat) : JsonList → JsonFields
  | .nil => .nil
  | .cons h t => .cons (toString i) h (indexFieldsFrom (i + 1) t)

/-- `{...value}` for an object-typed (non-null) value. -/
def spreadFields : Json → JsonFields
  | .arr xs => indexFieldsFrom 0 xs
  | .obj fs => fs
  | _ => .nil

mutual
/-- `mergeValues` from the source (second half of the file).  Both
sequences concatenate into a fresh sequence; otherwise, when both sides
satisfy `isObject` (which arrays do), `value` is spread into a fresh plain
object and every own key of `patch` is merged in; otherwise `patch` wins.
The per-key update `result[key] = mergeValues(result[key], patch[key])`
reads the not-yet-updated binding (patch keys are unique). -/
def mergeValues : Json → Json → Json
  | value, patch =>
    match value, patch with
    | .arr xs, .arr ys => .arr (jlAppend xs ys)
    | v, p =>
      if isObjectJ v && isObjectJ p then
        match p with
        | .arr ys => .obj (mergeArrEntries (spreadFields v) 0 ys)
        | .obj gs => .obj (mergeObjEntries (spreadFields v) gs)
        | _ => p
      else p

/-- The `for (const key of Object.keys(patch))` loop when `patch` is an
array: its own keys are its index strings, in order. -/
def mergeArrEntries (result : JsonFields) (i : Nat) : JsonList → JsonFields
  | .nil => result
  | .cons pv rest =>
    mergeArrEntries
      (jfSet result (toString i)
        (match jfGet result (toString i) with
          | some cur => mergeValues cur pv
          | none => pv))
      (i + 1) rest

/-- The `for (const key of Object.keys(patch))` loop when `patch` is a
plain object.  `mergeValues(undefined, pv)` is `pv` in the source (its
`else` branch), inlined here for the absent-key case. -/
def mergeObjEntries (result : JsonFields) : JsonFields → JsonFields
  | .nil => result
  | .cons k pv rest =>
    mergeObjEntries
      (jfSet result k
        (match jfGet result k with
          | some cur => mergeValues cur pv
          | none => pv))
      rest
end

/-! Null-freeness of a tree: the sufficient condition under which the
`typeof null === "object"` pitfalls of `getValueByPath`/`setValueByPath`
cannot fire. -/

mutual
def nullFreeJ : Json → Bool
  | .null => false
  | .bool _ => true
  | .num _ => true
  | .str _ => true
  | .arr xs => nullFreeJL xs
  | .obj fs => nullFreeJF fs

def nullFreeJL : JsonList → Bool
  | .nil => true
  | .cons h t => nullFreeJ h && nullFreeJL t

def nullFreeJF : JsonFields → Bool
  | .nil => true
  | .cons _ v t => nullFreeJ v && nullFreeJF t
end

/-! ### Heap model of `mergeValues`

To state what the source's `mergeValues` does to its arguments in memory
(it builds `[...value, ...patch]` and `{...value}` and only ever assigns
into the latter fresh object), arrays and objects live in an explicit
store and are passed by reference, exactly as in JS.  `fuel` bounds the
recursion depth (JS would loop forever on a cyclic patch anyway). -/

inductive HVal where
  | null
  | bool (b : Bool)
  | num (n : Int)
  | str (s : String)
  | ref (a : Nat)
deriving DecidableEq

inductive HCell where
  | harr (elems : List HVal)
  | hobj (fields : List (String × HVal))
deriving DecidableEq

abbrev Store : Type := List HCell

/-- Elements of `v` when `v` refers to an array cell. -/
def arrayElems (σ : Store) (v : HVal) : Option (List HVal) :=
  match v with
  | .ref a =>
    match σ.get? a with
    | some (.harr xs) => some xs
    | _ => none
  | _ => none

/-- The cell of `v` when `isObject v` holds (any live reference — arrays
included, `null` is not a reference). -/
def derefObj (σ : Store) (v : HVal) : Option HCell :=
  match v with
  | .ref a => σ.get? a
  | _ => none

/-- Array indices as string keys, starting at `i`. -/
def hIndexFrom (i : Nat) : List HVal → List (String × HVal)
  | [] => []
  | x :: rest => (toString i, x) :: hIndexFrom (i + 1) rest

/-- Own enumerable entries of a cell, in order (`Object.keys` view; also
the `{...value}` spread view). -/
def cellEntries : HCell → List (String × HVal)
  | .harr xs => hIndexFrom 0 xs
  | .hobj fs => fs

def hfGet : List (String × HVal) → String → Option HVal
  | [], _ => none
  | (k, v) :: t, key => if k = key then some v else hfGet t key

def hfSet : List (String × HVal) → String → HVal → List (String × HVal)
  | [], key, x => [(key, x)]
  | (k, v) :: t, key, x =>
    if k = key then (k, x) :: t else (k, v) :: hfSet t key x

mutual
/-- `mergeValues` over the store.  Every constructed array/object is
allocated at a fresh address (`σ ++ [cell]`); the only in-place writes are
the `result[key] = …` updates to the freshly allocated spread copy. -/
def mergeValuesH : Nat → Store → HVal → HVal → Option (Store × HVal)
  | 0, _, _, _ => none
  | fuel + 1, σ, value, patch =>
    match arrayElems σ value, arrayElems σ patch with
    | some xs, some ys => some (σ ++ [.harr (xs ++ ys)], .ref σ.length)
    | _, _ =>
      match derefObj σ value, derefObj σ patch with
      | some vcell, some pcell =>
        match mergeEntriesH fuel (σ ++ [.hobj (cellEntries vcell)]) σ.length
            (cellEntries pcell) with
        | some σ3 => some (σ3, .ref σ.length)
        | none => none
      | _, _ => some (σ, patch)

/-- The `for (const key of Object.keys(patch))` loop:
`result[key] = mergeValues(result[key], patch[key])`, reading the current
binding from the result cell, merging, then writing the result cell. -/
def mergeEntriesH : Nat → Store → Nat → List (String × HVal) → Option Store
  | 0, _, _, _ => none
  | _ + 1, σ, _, [] => some σ
  | fuel + 1, σ, resAddr, (k, pv) :: rest =>
    match σ.get? resAddr with
    | some (.hobj fs) =>
      match (match hfGet fs k with
        | some cur => mergeValuesH fuel σ cur pv
        | none => some (σ, pv)) with
      | some (σ2, merged) =>
        match σ2.get? resAddr with
        | some (.hobj fs2) =>
          mergeEntriesH fuel (σ2.set resAddr (.hobj (hfSet fs2 k merged))) resAddr rest
        | _ => none
      | none => none
    | _ => none
end

/-! ### Segment-level restatement of `posixNormalize`

A clean view of the character-scanning loop, used to prove its
properties: `slashStep` acting on rendered segments is `segStep`, and the
whole loop is `normSegs` over the `/`-split of the input. -/

/-- What one closing slash does to the accumulated segments: empty and
`.` segments are dropped, `..` pops a trailing real segment and otherwise
(when permitted) accumulates, anything else is appended. -/
def segStep (allow : Bool) (acc : List (List Char)) (seg : List Char) : List (List Char) :=
  if seg = [] ∨ seg = ['.'] then acc
  else if seg = ['.', '.'] then
    if acc ≠ [] ∧ acc.getLast? ≠ some ['.', '.'] then acc.dropLast
    else if allow then acc ++ [seg]
    else acc
  else acc ++ [seg]

def normSegs (allow : Bool) : List (List Char) → List (List Char) → List (List Char)
  | acc, [] => acc
  | acc, s :: rest => normSegs allow (segStep allow acc s) rest

/-- Length of the last accumulated segment (the loop's
`lastSegmentLength`). -/
def lastLen (acc : List (List Char)) : Nat :=
  match acc.getLast? with
  | some s => s.length
  | none => 0

/-- The loop's `dots` counter at the end of a slash-free slice. -/
def dotsVal (seg : List Char) : Int :=
  if seg.all (fun c => c == '.') then (seg.length : Int) else -1

/-- A segment that `segStep` appends verbatim. -/
def realSeg (s : List Char) : Prop :=
  s ≠ [] ∧ s ≠ ['.'] ∧ s ≠ ['.', '.'] ∧ '/' ∉ s

/-- No `/`-separated segment of `s` is `..`. -/
def noDotDotSeg (s : String) : Prop :=
  ['.', '.'] ∉ splitChar '/' s.toList

/-- The pointer `parseRef` extracts from the part of the reference between
the first and the second `#`. -/
def fragPointer (b : List Char) : String :=
  if String.mk b = "" ∨ String.mk b = "/" then "" else String.mk b


/-! ## Theorems -/



theorem nullFree_jlGet : ∀ (xs : JsonList) (n : Nat) (j : Json),
    nullFreeJL xs = true → jlGet xs n = some j → nullFreeJ j = true
  | .cons h t, 0, j, hf, hg => by
    simp only [jlGet, Option.some.injEq] at hg
    simp only [nullFreeJL, Bool.and_eq_true] at hf
    rw [← hg]; exact hf.1
  | .cons h t, n + 1, j, hf, hg => by
    simp only [nullFreeJL, Bool.and_eq_true] at hf
    exact nullFree_jlGet t n j hf.2 hg
  | .nil, n, j, hf, hg => by simp [jlGet] at hg

theorem nullFree_jfGet : ∀ (fs : JsonFields) (key : String) (j : Json),
    nullFreeJF fs = true → jfGet fs key = some j → nullFreeJ j = true
  | .cons k v t, key, j, hf, hg => by
    simp only [nullFreeJF, Bool.and_eq_true] at hf
    by_cases hk : k = key
    · simp [jfGet, hk] at hg
      rw [← hg]; exact hf.1
    · simp only [jfGet, if_neg hk] at hg
      exact nullFree_jfGet t key j hf.2 hg
  | .nil, key, j, hf, hg => by simp [jfGet] at hg

theorem nullFree_strProp (s key : String) (j : Json) (h : strProp s key = some j) :
    nullFreeJ j = true := by
  unfold strProp at h
  split at h
  · simp only [Option.some.injEq] at h; rw [← h]; rfl
  · split at h
    · split at h
      · simp only [Option.some.injEq] at h; rw [← h]; rfl
      · exact absurd h (by simp)
    · exact absurd h (by simp)

theorem jsGet_nullFree (v : Json) (k : Key) (h : nullFreeJ v = true) :
    ∃ v2, jsGet v k = .ok v2 ∧ ∀ w, v2 = some w → nullFreeJ w = true := by
  cases v with
  | null => simp [nullFreeJ] at h
  | bool b => exact ⟨none, rfl, by simp⟩
  | num n => exact ⟨none, rfl, by simp⟩
  | str s =>
    refine ⟨strProp s (keyToString k), rfl, ?_⟩
    intro w hw
    exact nullFree_strProp s (keyToString k) w hw
  | arr xs =>
    refine ⟨_, rfl, ?_⟩
    intro w hw
    cases hkn : keyToNumber k with
    | none => simp [hkn] at hw
    | some n =>
      simp only [hkn] at hw
      split at hw
      · exact nullFree_jlGet xs n.toNat w h hw
      · simp at hw
  | obj fs =>
    refine ⟨_, rfl, ?_⟩
    intro w hw
    exact nullFree_jfGet fs (keyToString k) w h hw

theorem getLoop_isOk : ∀ (path : List Key) (v2 : Option Json),
    (∀ w, v2 = some w → nullFreeJ w = true) → (getLoop v2 path).isOk = true
  | [], v2, _ => by cases v2 <;> rfl
  | _ :: _, none, _ => rfl
  | k :: rest, some v, h => by
    obtain ⟨v2, hok, hnf⟩ := jsGet_nullFree v k (h v rfl)
    simp only [getLoop, hok]
    exact getLoop_isOk rest v2 hnf

/-- C2 (amended): `getValueByPath` walks the path left to right and never
throws for a null-free root: every lookup either yields the addressed
value or stops the walk with the absent sentinel. -/
theorem getValueByPath_total_on_null_free (j : Json) (path : List Key)
    (h : nullFreeJ j = true) : (getValueByPath j path).isOk = true :=
  getLoop_isOk path (some j) (fun w hw => by
    injection hw with hw
    rwa [← hw])

/-- C2 counterexample: property access on `null` throws a `TypeError`, so
`getValueByPath` does throw for a `null` root (and likewise for a `null`
intermediate with keys left to process). -/
theorem getValueByPath_throws_on_null_root :
    getValueByPath Json.null [Key.str "a"] = .error () := rfl

/-- C2 witness. -/
theorem getValueByPath_total_witness :
    nullFreeJ (Json.obj (jfields [("a", Json.arr (jlist [Json.num 1, Json.num 2, Json.num 3]))])) = true ∧
    (getValueByPath (Json.obj (jfields [("a", Json.arr (jlist [Json.num 1, Json.num 2, Json.num 3]))]))
      [Key.str "a", Key.num 1]).isOk = true :=
  ⟨rfl, getValueByPath_total_on_null_free _ _ rfl⟩


/-- C1: the claim says `normalize` never raises and ignores malformed
percent-escapes; the source's `try { decodeURIComponent } finally
{ posixNormalize }` has no `catch`, so the `URIError` thrown for a lone
`%` propagates and `normalize` does not return a string. -/
theorem normalize_throws_on_lone_percent : normalize "%" = .error () := rfl

theorem jsPropGet_ok (v : Json) (k : Key) (hv : isObjectJ v = true)
    (hnf : nullFreeJ v = true) (hk : keyToString k ≠ "length") :
    ∃ copt, jsPropGet v k = .ok copt ∧ ∀ w, copt = some w → nullFreeJ w = true := by
  cases v with
  | arr xs =>
    cases hci : canonicalIndex (keyToString k) with
    | some n =>
      refine ⟨jlGet xs n, by simp [jsPropGet, hk, hci], ?_⟩
      intro w hw
      exact nullFree_jlGet xs n w hnf hw
    | none => exact ⟨none, by simp [jsPropGet, hk, hci], by simp⟩
  | obj fs =>
    refine ⟨_, rfl, ?_⟩
    intro w hw
    exact nullFree_jfGet fs (keyToString k) w hnf hw
  | null => simp [isObjectJ] at hv
  | bool b => simp [isObjectJ] at hv
  | num n => simp [isObjectJ] at hv
  | str s => simp [isObjectJ] at hv

theorem jsPropSet_ok (v : Json) (k : Key) (x : Json) (hv : isObjectJ v = true)
    (hk : keyToString k ≠ "length") :
    ∃ v2, jsPropSet v k x = .ok v2 ∧ isObjectJ v2 = true := by
  cases v with
  | arr xs =>
    cases hci : canonicalIndex (keyToString k) with
    | some n => exact ⟨.arr (jlSet xs n x), by simp [jsPropSet, hk, hci], rfl⟩
    | none => exact ⟨.arr xs, by simp [jsPropSet, hk, hci], rfl⟩
  | obj fs => exact ⟨_, rfl, rfl⟩
  | null => simp [isObjectJ] at hv
  | bool b => simp [isObjectJ] at hv
  | num n => simp [isObjectJ] at hv
  | str s => simp [isObjectJ] at hv

theorem setGo_isOk : ∀ (path : List Key) (obj value : Json),
    isObjectJ obj = true → nullFreeJ obj = true →
    (∀ k ∈ path, keyToString k ≠ "length") → (setGo obj path value).isOk = true
  | [], _, _, _, _, _ => rfl
  | key :: rest, obj, value, h1, h2, h3 => by
    have hk : keyToString key ≠ "length" := h3 key (by simp)
    have h3r : ∀ k ∈ rest, keyToString k ≠ "length" :=
      fun k hkmem => h3 k (List.mem_cons_of_mem _ hkmem)
    obtain ⟨copt, hget, hnf⟩ := jsPropGet_ok obj key h1 h2 hk
    -- a single continuation lemma used by every branch below:
    -- once the coercion produced `obj1` and the child is a null-free
    -- container, the remaining control flow succeeds
    have finish : ∀ (obj1 child : Json), isObjectJ obj1 = true →
        isObjectJ child = true → nullFreeJ child = true →
        ((if rest.isEmpty then jsPropSet obj1 key value
          else
            match setGo child rest value with
            | .error e => .error e
            | .ok child2 => jsPropSet obj1 key child2) : Except Unit Json).isOk = true := by
      intro obj1 child hobj1 hcObj hcNf
      cases rest with
      | nil =>
        obtain ⟨v2, hset, _⟩ := jsPropSet_ok obj1 key value hobj1 hk
        simp [hset, Except.isOk, Except.toBool]
      | cons r rs =>
        have hrec := setGo_isOk (r :: rs) child value hcObj hcNf h3r
        cases hrecEq : setGo child (r :: rs) value with
        | error e => rw [hrecEq] at hrec; simp [Except.isOk, Except.toBool] at hrec
        | ok child2 =>
          obtain ⟨v2, hset, _⟩ := jsPropSet_ok obj1 key child2 hobj1 hk
          simp [hrecEq, hset, Except.isOk, Except.toBool]
    cases copt with
    | none =>
      obtain ⟨obj1, hset1, hobj1⟩ := jsPropSet_ok obj key (Json.obj .nil) h1 hk
      have := finish obj1 (Json.obj .nil) hobj1 rfl rfl
      simp only [setGo, hget, if_true, hset1]
      exact this
    | some j =>
      by_cases ht : typeofObject j = true
      · have hj := hnf j rfl
        have hcObj : isObjectJ j = true := by
          cases j with
          | null => simp [nullFreeJ] at hj
          | arr xs => rfl
          | obj fs => rfl
          | bool b => simp [typeofObject] at ht
          | num n => simp [typeofObject] at ht
          | str s => simp [typeofObject] at ht
        have := finish obj j h1 hcObj hj
        simp only [setGo, hget, ht, Bool.not_true, Bool.false_eq_true, if_false, if_true]
        exact this
      · simp only [Bool.not_eq_true] at ht
        obtain ⟨obj1, hset1, hobj1⟩ := jsPropSet_ok obj key (Json.obj .nil) h1 hk
        have := finish obj1 (Json.obj .nil) hobj1 rfl rfl
        simp only [setGo, hget, ht, Bool.not_false, if_true, Bool.false_eq_true, if_false, hset1]
        exact this

/-- C3 (amended): for container roots, `setValueByPath` always places a
value without raising as long as the tree is null-free and no array is
addressed through its `length` property: every non-object-typed value on
the path is overwritten with a fresh empty mapping before descending.
`typeof null === "object"`, so `null` is not coerced, and descending
through it raises a `TypeError`. -/
theorem setValueByPath_total_on_null_free (obj : Json) (path : List Key) (value : Json)
    (h1 : isObjectJ obj = true) (h2 : nullFreeJ obj = true)
    (h3 : ∀ k ∈ path, keyToString k ≠ "length") :
    (setValueByPath obj path value 0).isOk = true := by
  simpa [setValueByPath] using setGo_isOk path obj value h1 h2 h3

/-- C3 counterexample: a `null` blocking the path is not replaced by an
empty mapping (its `typeof` is `"object"`), and the set then throws. -/
theorem setValueByPath_throws_on_null_intermediate :
    setValueByPath (Json.obj (jfields [("a", Json.null)])) [Key.str "a", Key.str "b"]
      (Json.num 5) 0 = .error () := rfl

/-- C3 witness. -/
theorem setValueByPath_total_witness :
    isObjectJ (Json.obj (jfields [("a", Json.num 1)])) = true ∧
    nullFreeJ (Json.obj (jfields [("a", Json.num 1)])) = true ∧
    (setValueByPath (Json.obj (jfields [("a", Json.num 1)])) [Key.str "a", Key.str "b"]
      (Json.num 5) 0).isOk = true :=
  ⟨rfl, rfl, setValueByPath_total_on_null_free _ _ _ rfl rfl (by decide)⟩


theorem mergeValues_both_arrays (xs ys : JsonList) :
    mergeValues (.arr xs) (.arr ys) = .arr (jlAppend xs ys) := by
  simp [mergeValues]

theorem mergeValues_default (v p : Json)
    (h : isObjectJ v = false ∨ isObjectJ p = false) : mergeValues v p = p := by
  cases v <;> cases p <;> simp_all [mergeValues, isObjectJ]

/-- C7 (amended): `mergeValues` combines by shape with patch precedence:
two sequences concatenate (value's elements then patch's, into a fresh
sequence); two `isObject` values — which include sequences — merge as
mappings with patch winning on conflict (a sequence contributing
index-keyed fields); patch replaces value outright only when at least one
side is a scalar or null, not for every non-sequence/sequence mismatch. -/
theorem mergeValues_shape_rules :
    mergeValues (Json.obj (jfields [("a", Json.num 1), ("b", Json.num 2)]))
      (Json.obj (jfields [("b", Json.num 3), ("c", Json.num 4)])) =
      Json.obj (jfields [("a", Json.num 1), ("b", Json.num 3), ("c", Json.num 4)]) ∧
    mergeValues (Json.arr (jlist [Json.num 1, Json.num 2])) (Json.arr (jlist [Json.num 3])) =
      Json.arr (jlist [Json.num 1, Json.num 2, Json.num 3]) ∧
    mergeValues (Json.num 5) (Json.obj (jfields [("a", Json.num 1)])) =
      Json.obj (jfields [("a", Json.num 1)]) ∧
    (∀ xs ys : JsonList, mergeValues (.arr xs) (.arr ys) = .arr (jlAppend xs ys)) ∧
    (∀ v p : Json, isObjectJ v = false ∨ isObjectJ p = false → mergeValues v p = p) :=
  ⟨rfl, rfl, rfl, mergeValues_both_arrays, mergeValues_default⟩

/-- C7 witness (for the hypothesis of the last conjunct). -/
theorem mergeValues_shape_rules_witness :
    mergeValues (Json.num 1) (Json.num 2) = Json.num 2 :=
  mergeValues_shape_rules.2.2.2.2 (Json.num 1) (Json.num 2) (Or.inl rfl)

/-- C7 counterexample: a sequence merged with a mapping does not return
the patch — both sides satisfy the source's `isObject`, so they are merged
as mappings, the sequence spread to index-keyed fields. -/
theorem mergeValues_mixed_counterexample :
    mergeValues (Json.arr (jlist [Json.num 1, Json.num 2]))
      (Json.obj (jfields [("a", Json.num 1)])) =
      Json.obj (jfields [("0", Json.num 1), ("1", Json.num 2), ("a", Json.num 1)]) ∧
    mergeValues (Json.arr (jlist [Json.num 1, Json.num 2]))
      (Json.obj (jfields [("a", Json.num 1)])) ≠
      Json.obj (jfields [("a", Json.num 1)]) :=
  ⟨rfl, by decide⟩


theorem mergeH_frame : ∀ fuel : Nat,
    (∀ (σ : Store) (v p : HVal) (out : Store × HVal),
      mergeValuesH fuel σ v p = some out →
      σ.length ≤ out.1.length ∧ ∀ a, a < σ.length → out.1[a]? = σ[a]?) ∧
    (∀ (σ : Store) (resAddr : Nat) (entries : List (String × HVal)) (σ2 : Store),
      mergeEntriesH fuel σ resAddr entries = some σ2 → resAddr < σ.length →
      σ.length ≤ σ2.length ∧ ∀ a, a < σ.length → a ≠ resAddr → σ2[a]? = σ[a]?) := by
  intro fuel
  induction fuel with
  | zero =>
    constructor
    · intro σ v p out h; simp [mergeValuesH] at h
    · intro σ resAddr entries σ2 h _; simp [mergeEntriesH] at h
  | succ fuel ih =>
    constructor
    · intro σ v p out h
      unfold mergeValuesH at h
      split at h
      · -- both arrays: fresh cell appended
        injection h with h
        rw [← h]
        refine ⟨by simp, ?_⟩
        intro a ha
        simp [List.getElem?_append, ha]
      · split at h
        · -- both objects: spread copy appended, entries merged into it
          split at h
          · injection h with h
            rename_i σ3 hentries
            obtain ⟨hlen, hget⟩ := ih.2 (σ ++ [HCell.hobj _]) σ.length _ σ3 hentries
              (by simp)
            rw [← h]
            constructor
            · calc σ.length ≤ (σ ++ [HCell.hobj _]).length := by simp
                _ ≤ σ3.length := hlen
            · intro a ha
              have h1 : σ3[a]? = (σ ++ [HCell.hobj _])[a]? :=
                hget a (by simp; omega) (by omega)
              rw [h1, List.getElem?_append, if_pos ha]
          · exact absurd h (by simp)
        · -- type mismatch: patch returned, store untouched
          injection h with h
          rw [← h]
          exact ⟨le_refl _, fun a _ => rfl⟩
    · intro σ resAddr entries σ2 h hlt
      cases entries with
      | nil =>
        simp only [mergeEntriesH, Option.some.injEq] at h
        rw [← h]
        exact ⟨le_refl _, fun a _ _ => rfl⟩
      | cons e rest =>
        obtain ⟨k, pv⟩ := e
        simp only [mergeEntriesH] at h
        split at h
        · -- result cell is a live object
          split at h
          · -- the per-key merge succeeded
            rename_i σm merged heq2
            split at h
            · -- the result cell is still live after the merge
              rename_i fs2 hcell2
              have hm : σ.length ≤ σm.length ∧ ∀ a, a < σ.length → σm[a]? = σ[a]? := by
                split at heq2
                · exact ih.1 σ _ pv (σm, merged) heq2
                · injection heq2 with heq2
                  rw [show σm = σ from (congrArg Prod.fst heq2).symm]
                  exact ⟨le_refl _, fun a _ => rfl⟩
              obtain ⟨hm1, hm2⟩ := hm
              obtain ⟨hlen2, hget2⟩ := ih.2 (σm.set resAddr (.hobj (hfSet fs2 k merged)))
                resAddr rest σ2 h (by rw [List.length_set]; omega)
              constructor
              · calc σ.length ≤ σm.length := hm1
                  _ = (σm.set resAddr (.hobj (hfSet fs2 k merged))).length := by
                    rw [List.length_set]
                  _ ≤ σ2.length := hlen2
              · intro a ha hne
                have h1 : σ2[a]? = (σm.set resAddr (.hobj (hfSet fs2 k merged)))[a]? :=
                  hget2 a (by rw [List.length_set]; omega) hne
                rw [h1, List.getElem?_set_ne (Ne.symm hne), hm2 a ha]
            · exact absurd h (by simp)
          · exact absurd h (by simp)
        · exact absurd h (by simp)

/-- C10: the second `mergeValues` is copy-on-write — every cell of the
store that exists before the call (in particular the whole structure
reachable from `value`) is unchanged afterwards, and whenever `value` and
`patch` are actually combined (both are live references) the result is a
freshly allocated cell. -/
theorem mergeValuesH_copy_on_write (fuel : Nat) (σ : Store) (v p : HVal)
    (σ2 : Store) (r : HVal) (h : mergeValuesH fuel σ v p = some (σ2, r)) :
    (∀ a, a < σ.length → σ2[a]? = σ[a]?) ∧
    (∀ vc pc, derefObj σ v = some vc → derefObj σ p = some pc →
      ∃ n, r = .ref n ∧ σ.length ≤ n) := by
  constructor
  · exact ((mergeH_frame fuel).1 σ v p (σ2, r) h).2
  · intro vc pc hvc hpc
    cases fuel with
    | zero => simp [mergeValuesH] at h
    | succ fuel =>
      unfold mergeValuesH at h
      split at h
      · injection h with h
        exact ⟨σ.length, (congrArg Prod.snd h).symm, le_refl _⟩
      · split at h
        · split at h
          · injection h with h
            exact ⟨σ.length, (congrArg Prod.snd h).symm, le_refl _⟩
          · exact absurd h (by simp)
        · rename_i hno
          exact (hno vc pc hvc hpc).elim

/-- C10 witness. -/
theorem mergeValuesH_copy_on_write_witness :
    mergeValuesH 5 [HCell.harr [HVal.num 1, HVal.num 2], HCell.harr [HVal.num 3]]
      (HVal.ref 0) (HVal.ref 1) =
      some ([HCell.harr [HVal.num 1, HVal.num 2], HCell.harr [HVal.num 3],
        HCell.harr [HVal.num 1, HVal.num 2, HVal.num 3]], HVal.ref 2) ∧
    ([HCell.harr [HVal.num 1, HVal.num 2], HCell.harr [HVal.num 3],
        HCell.harr [HVal.num 1, HVal.num 2, HVal.num 3]] : Store)[0]? =
      ([HCell.harr [HVal.num 1, HVal.num 2], HCell.harr [HVal.num 3]] : Store)[0]? :=
  ⟨rfl,
    (mergeValuesH_copy_on_write 5
      [HCell.harr [HVal.num 1, HVal.num 2], HCell.harr [HVal.num 3]]
      (HVal.ref 0) (HVal.ref 1)
      [HCell.harr [HVal.num 1, HVal.num 2], HCell.harr [HVal.num 3],
        HCell.harr [HVal.num 1, HVal.num 2, HVal.num 3]]
      (HVal.ref 2) rfl).1 0 (by decide)⟩



theorem splitChar_ne_nil (sep : Char) : ∀ l : List Char, splitChar sep l ≠ []
  | [] => by simp [splitChar]
  | c :: rest => by
    by_cases h : c = sep
    · simp [splitChar, h]
    · simp only [splitChar, if_neg h]
      cases hs : splitChar sep rest with
      | nil => exact absurd hs (splitChar_ne_nil sep rest)
      | cons s ss => simp

theorem splitChar_append_sep (sep : Char) : ∀ (x rest : List Char), sep ∉ x →
    splitChar sep (x ++ sep :: rest) = x :: splitChar sep rest
  | [], rest, _ => by simp [splitChar]
  | c :: x, rest, hx => by
    have hc : c ≠ sep := fun h => hx (h ▸ List.mem_cons_self c x)
    have hx2 : sep ∉ x := fun h => hx (List.mem_cons_of_mem c h)
    simp only [List.cons_append, splitChar, if_neg hc, List.append_eq,
      splitChar_append_sep sep x rest hx2]

theorem decodeSM_percent_free : ∀ l : List Char, '%' ∉ l →
    decodeSM .plain l = .ok l
  | [], _ => rfl
  | c :: rest, h => by
    have hc : c ≠ '%' := fun hh => h (hh ▸ List.mem_cons_self c rest)
    have h2 : '%' ∉ rest := fun hh => h (List.mem_cons_of_mem c hh)
    simp only [decodeSM, if_neg hc, decodeSM_percent_free rest h2]

theorem decode_percent_free (l : List Char) (h : '%' ∉ l) :
    decodeURIComponentList l = .ok l :=
  decodeSM_percent_free l h

theorem mk_toList (s : String) : String.mk s.toList = s := rfl

theorem toList_mk (l : List Char) : (String.mk l).toList = l := rfl

theorem decodeURIComponent_percent_free (s : String) (h : '%' ∉ s.toList) :
    decodeURIComponent s = .ok s := by
  simp only [decodeURIComponent, decode_percent_free s.toList h, Except.map, mk_toList]

theorem normalize_ok_of_percent_free (p : String) (hp : '%' ∉ p.toList) :
    ∃ q, normalize p = .ok q := by
  unfold normalize
  by_cases h0 : p.length = 0
  · exact ⟨".", by simp [h0]⟩
  · simp only [h0, if_false, decodeURIComponent_percent_free p hp]
    split <;> exact ⟨_, rfl⟩

theorem mem_joinSlash : ∀ (segs : List (List Char)) (c : Char),
    c ∈ joinSlash segs → c = '/' ∨ ∃ s ∈ segs, c ∈ s
  | [], c, h => by simp [joinSlash] at h
  | [s], c, h => by
    simp only [joinSlash] at h
    exact Or.inr ⟨s, by simp, h⟩
  | s :: s2 :: rest, c, h => by
    simp only [joinSlash, List.mem_append, List.mem_cons] at h
    rcases h with h | h | h
    · exact Or.inr ⟨s, by simp, h⟩
    · exact Or.inl h
    · rcases mem_joinSlash (s2 :: rest) c h with h2 | ⟨s3, hs3, hc⟩
      · exact Or.inl h2
      · exact Or.inr ⟨s3, by simp [List.mem_cons] at hs3 ⊢; tauto, hc⟩

theorem mem_of_mem_splitChar (sep : Char) : ∀ (l : List Char) (s : List Char) (c : Char),
    s ∈ splitChar sep l → c ∈ s → c ∈ l
  | [], s, c, hs, hc => by
    simp only [splitChar, List.mem_singleton] at hs
    rw [hs] at hc
    simp at hc
  | c0 :: rest, s, c, hs, hc => by
    by_cases h0 : c0 = sep
    · simp only [splitChar, if_pos h0, List.mem_cons] at hs
      rcases hs with hs | hs
      · rw [hs] at hc; simp at hc
      · exact List.mem_cons_of_mem c0 (mem_of_mem_splitChar sep rest s c hs hc)
    · simp only [splitChar, if_neg h0] at hs
      cases hrec : splitChar sep rest with
      | nil => exact absurd hrec (splitChar_ne_nil sep rest)
      | cons s0 ss =>
        rw [hrec] at hs
        simp only [List.mem_cons] at hs
        rcases hs with hs | hs
        · rw [hs] at hc
          rcases List.mem_cons.1 hc with hc | hc
          · exact hc ▸ List.mem_cons_self c0 rest
          · refine List.mem_cons_of_mem c0 ?_
            exact mem_of_mem_splitChar sep rest s0 c (by rw [hrec]; simp) hc
        · refine List.mem_cons_of_mem c0 ?_
          exact mem_of_mem_splitChar sep rest s c (by rw [hrec]; simp [hs]) hc

theorem relativePath_ok (path base : String) (h1 : '%' ∉ path.toList)
    (h2 : '%' ∉ base.toList) : ∃ q, relativePath path base = .ok q := by
  unfold relativePath
  by_cases hb : base = ""
  · simp only [hb, if_pos rfl]
    exact normalize_ok_of_percent_free path h1
  · simp only [if_neg hb]
    by_cases hp : path = ""
    · simp only [hp, if_pos rfl]
      exact normalize_ok_of_percent_free base h2
    · simp only [if_neg hp]
      refine normalize_ok_of_percent_free _ ?_
      intro hmem
      rw [toList_mk] at hmem
      rcases mem_joinSlash _ _ hmem with h | ⟨s, hs, hc⟩
      · exact absurd h (by decide)
      · rcases List.mem_append.1 hs with hs | hs
        · exact h2 (mem_of_mem_splitChar '/' base.toList s '%'
            (List.dropLast_subset _ hs) hc)
        · rw [List.mem_singleton.1 hs] at hc
          exact h1 hc




theorem relativePath_empty_path (base : String) :
    relativePath "" base = normalize base := by
  by_cases h : base = ""
  · rw [h]; rfl
  · simp [relativePath, h]

/-- C9: a reference with no path component before its `#` resolves
`filePath` to the normalized `basePath` (whatever the fragment is): the
empty source path fails `validURL` and `relativePath("", basePath)`
normalizes the base. -/
theorem parseRef_no_source_uses_base (frag base nb : String)
    (h : normalize base = .ok nb) :
    (parseRef ("#" ++ frag) base).map RefData.filePath = .ok nb := by
  have htl : ("#" ++ frag).toList = '#' :: frag.toList := by
    have := String.data_append "#" frag
    simp only [String.toList]
    rw [this]
    rfl
  obtain ⟨s0, ss, hrest⟩ : ∃ s0 ss, splitChar '#' frag.toList = s0 :: ss := by
    cases hsc : splitChar '#' frag.toList with
    | nil => exact absurd hsc (splitChar_ne_nil '#' frag.toList)
    | cons s0 ss => exact ⟨s0, ss, rfl⟩
  have hsplit : splitChar '#' ("#" ++ frag).toList = [] :: s0 :: ss := by
    rw [htl, show splitChar '#' ('#' :: frag.toList) = [] :: splitChar '#' frag.toList
      from by simp [splitChar]]
    rw [hrest]
  have hrel : relativePath (String.mk []) base = .ok nb := by
    rw [show String.mk [] = "" from rfl, relativePath_empty_path, h]
  unfold parseRef
  rw [hsplit]
  simp only [List.head?_cons, List.get?_cons_succ, List.get?_cons_zero]
  rw [show validURL (String.mk []) = false from rfl, if_neg (by simp), hrel]
  rfl

/-- C9 witness (the spec's own example). -/
theorem parseRef_no_source_uses_base_witness :
    (parseRef ("#" ++ "/x") "dir/base.yaml").map RefData.filePath = .ok "dir/base.yaml" :=
  parseRef_no_source_uses_base "/x" "dir/base.yaml" "dir/base.yaml" rfl


/-- C4 (amended): `$ref.split("#")` splits on every `#` and the
destructuring keeps only the first two parts: the part before the first
`#` feeds `filePath`, the part strictly between the first and second `#`
(or the whole remainder when there is no second `#`) is the raw pointer,
and everything after a second `#` is discarded, so a reference with two
or more `#` loses text rather than keeping the entire remainder. -/
theorem parseRef_uses_first_two_parts (a b c : List Char) (base : String)
    (ha1 : '#' ∉ a) (hb : '#' ∉ b) (ha2 : '%' ∉ a) (hbase : '%' ∉ base.toList)
    (hurl : validURL (String.mk a) = false) :
    ∃ fp, relativePath (String.mk a) base = .ok fp ∧
      parseRef (String.mk (a ++ ('#' :: (b ++ ('#' :: c))))) base =
        .ok { filePath := fp, pointer := fragPointer b,
              normalized := createRef fp (fragPointer b) } := by
  obtain ⟨fp, hfp⟩ := relativePath_ok (String.mk a) base (by rwa [toList_mk]) hbase
  refine ⟨fp, hfp, ?_⟩
  have hsplit : splitChar '#' (String.mk (a ++ ('#' :: (b ++ ('#' :: c))))).toList
      = a :: b :: splitChar '#' c := by
    rw [toList_mk, splitChar_append_sep '#' a _ ha1, splitChar_append_sep '#' b c hb]
  unfold parseRef
  rw [hsplit]
  simp only [List.head?_cons, List.get?_cons_succ, List.get?_cons_zero]
  rw [hurl, if_neg (by simp), hfp]
  rfl

/-- C4 counterexample: at `"a#b#c"` the raw pointer is `"b"`, not the
entire remainder `"b#c"` after the first `#`. -/
theorem parseRef_discards_after_second_hash :
    (parseRef "a#b#c" "").map RefData.pointer = .ok "b" ∧
    (parseRef "a#b#c" "").map RefData.pointer ≠ .ok "b#c" :=
  ⟨rfl, fun h => by
    rw [show (parseRef "a#b#c" "").map RefData.pointer = .ok "b" from rfl] at h
    exact absurd (Except.ok.inj h) (by decide)⟩


/-- C4 witness. -/
theorem parseRef_uses_first_two_parts_witness :
    ∃ fp, relativePath (String.mk "a".toList) "" = .ok fp ∧
      parseRef (String.mk ("a".toList ++ ('#' :: ("b".toList ++ ('#' :: "c".toList))))) "" =
        .ok { filePath := fp, pointer := fragPointer "b".toList,
              normalized := createRef fp (fragPointer "b".toList) } :=
  parseRef_uses_first_two_parts "a".toList "b".toList "c".toList ""
    (by decide) (by decide) (by decide) (by decide) rfl


/-! ### Per-character views of the pointer codec -/

/-- `~`/`/` escaping of one token character (the fused effect of the two
`replace` calls of `buildPointer`). -/
def escTok (c : Char) : List Char :=
  if c = '~' then ['~', '0'] else if c = '/' then ['~', '1'] else [c]

/-- `encodeURIComponent` on one character. -/
def encChar (c : Char) : List Char :=
  if uriUnescaped c then [c] else concatMap pctEncodeByte (utf8Bytes c)

/-- One escaped-then-encoded token character. -/
def encEsc (c : Char) : List Char :=
  if c = '~' then ['~', '0'] else if c = '/' then ['~', '1'] else encChar c

/-- `encEsc` after `~1` has been unescaped back to `/`. -/
def midEsc (c : Char) : List Char :=
  if c = '~' then ['~', '0'] else if c = '/' then ['/'] else encChar c

/-- `encEsc` after both unescapes: what `decodeURIComponent` receives for
one original token character. -/
def decEsc (c : Char) : List Char :=
  if c = '~' then ['~'] else if c = '/' then ['/'] else encChar c

theorem concatMap_append {α β : Type} (f : α → List β) :
    ∀ l1 l2, concatMap f (l1 ++ l2) = concatMap f l1 ++ concatMap f l2
  | [], _ => rfl
  | x :: l1, l2 => by
    simp only [List.cons_append, concatMap, List.append_eq]
    rw [concatMap_append f l1 l2, List.append_assoc]

theorem concatMap_concatMap {α β γ : Type} (f : α → List β) (g : β → List γ) :
    ∀ l, concatMap g (concatMap f l) = concatMap (fun a => concatMap g (f a)) l
  | [] => rfl
  | x :: l => by
    simp only [concatMap, concatMap_append g, concatMap_concatMap f g l]

theorem encodeURIComponentList_eq (l : List Char) :
    encodeURIComponentList l = concatMap encChar l := by
  induction l with
  | nil => rfl
  | cons c rest ih => simp only [encodeURIComponentList, concatMap, encChar] at ih ⊢; rw [ih]

theorem jsReplaceAll_single (x : Char) (rep : List Char) :
    ∀ s, jsReplaceAll s [x] rep =
      concatMap (fun c => if c = x then rep else [c]) s
  | [] => rfl
  | c :: s => by
    simp only [jsReplaceAll, jsReplaceAllAux, concatMap]
    by_cases h : c = x
    · rw [h]
      simp only [List.isPrefixOf, beq_self_eq_true, Bool.true_and, List.isPrefixOf_nil_left,
        if_true, if_pos rfl, List.length_singleton]
      exact congrArg _ (jsReplaceAll_single x rep s)
    · have hbeq : ([x].isPrefixOf (c :: s)) = false := by
        simp [List.isPrefixOf, beq_iff_eq]
        exact fun hh => absurd hh.symm h
      rw [hbeq]
      simp only [Bool.false_eq_true, if_false, if_neg h]
      exact congrArg _ (jsReplaceAll_single x rep s)


theorem buildPointerToken_eq (s : String) :
    buildPointerToken (.str s) = concatMap encEsc s.toList := by
  unfold buildPointerToken
  rw [show keyToString (Key.str s) = s from rfl]
  rw [jsReplaceAll_single '~' ['~', '0'] s.toList]
  rw [jsReplaceAll_single '/' ['~', '1']]
  rw [concatMap_concatMap, encodeURIComponentList_eq, concatMap_concatMap]
  congr 1
  funext c
  by_cases h1 : c = '~'
  · subst h1; rfl
  · by_cases h2 : c = '/'
    · subst h2; rfl
    · simp [if_neg h1, if_neg h2, concatMap, encEsc]

-- characters that can appear in the percent-encoded image of a character
theorem mem_pctEncodeByte (b : Nat) (hb : b < 256) (x : Char) (hx : x ∈ pctEncodeByte b) :
    x = '%' ∨ ∃ n, n < 16 ∧ x = toHexDigit n := by
  simp only [pctEncodeByte, List.mem_cons, List.not_mem_nil, or_false] at hx
  rcases hx with h | h | h
  · exact Or.inl h
  · exact Or.inr ⟨b / 16, by omega, h⟩
  · exact Or.inr ⟨b % 16, by omega, h⟩

theorem toHexDigit_ne_tilde (n : Nat) (h : n < 16) : toHexDigit n ≠ '~' := by
  revert n
  decide

theorem toHexDigit_ne_slash (n : Nat) (h : n < 16) : toHexDigit n ≠ '/' := by
  revert n
  decide

theorem mem_concatMap {α β : Type} (f : α → List β) :
    ∀ (l : List α) (x : β), x ∈ concatMap f l → ∃ a ∈ l, x ∈ f a
  | [], x, hx => by simp [concatMap] at hx
  | a :: l, x, hx => by
    simp only [concatMap, List.mem_append] at hx
    rcases hx with hx | hx
    · exact ⟨a, by simp, hx⟩
    · obtain ⟨a2, ha2, hxa⟩ := mem_concatMap f l x hx
      exact ⟨a2, by simp [ha2], hxa⟩

theorem char_valid_nat (c : Char) :
    c.toNat < 0xD800 ∨ (0xE000 ≤ c.toNat ∧ c.toNat < 0x110000) := by
  have h := c.valid
  rcases h with h | h
  · exact Or.inl h
  · exact Or.inr h

theorem utf8Bytes_lt (c : Char) : ∀ b ∈ utf8Bytes c, b < 256 := by
  have hv : c.toNat < 0x110000 := by
    rcases char_valid_nat c with h | h
    · omega
    · omega
  intro b hb
  unfold utf8Bytes at hb
  split at hb <;> [skip; split at hb] <;> [skip; skip; split at hb] <;>
    simp only [List.mem_cons, List.not_mem_nil, or_false] at hb <;>
    rcases hb with h | h | h | h <;> omega

theorem mem_encChar (c x : Char) (hx : x ∈ encChar c) :
    x = c ∨ x = '%' ∨ ∃ n, n < 16 ∧ x = toHexDigit n := by
  unfold encChar at hx
  split at hx
  · exact Or.inl (List.mem_singleton.1 hx)
  · obtain ⟨b, hb, hxb⟩ := mem_concatMap pctEncodeByte (utf8Bytes c) x hx
    exact Or.inr (mem_pctEncodeByte b (utf8Bytes_lt c b hb) x hxb)

theorem mem_encChar_ne_tilde (c x : Char) (hc : c ≠ '~') (hx : x ∈ encChar c) :
    x ≠ '~' := by
  rcases mem_encChar c x hx with h | h | ⟨n, hn, h⟩
  · rw [h]; exact hc
  · rw [h]; decide
  · rw [h]; exact toHexDigit_ne_tilde n hn

theorem mem_encChar_ne_slash (c x : Char) (hc : c ≠ '/') (hx : x ∈ encChar c) :
    x ≠ '/' := by
  rcases mem_encChar c x hx with h | h | ⟨n, hn, h⟩
  · rw [h]; exact hc
  · rw [h]; decide
  · rw [h]; exact toHexDigit_ne_slash n hn


theorem beq_eq_false_of_ne {c d : Char} (h : c ≠ d) : (c == d) = false := by
  simp [beq_iff_eq]
  exact h

theorem replaceAux_no_tilde (d : Char) (rep : List Char) :
    ∀ (l rest : List Char), (∀ x ∈ l, x ≠ '~') →
    jsReplaceAllAux ['~', d] rep 0 (l ++ rest) =
      l ++ jsReplaceAllAux ['~', d] rep 0 rest
  | [], rest, _ => rfl
  | x :: l, rest, h => by
    have hx : x ≠ '~' := h x (by simp)
    have hx2 : ('~' == x) = false := beq_eq_false_of_ne (fun hh => hx hh.symm)
    simp only [List.cons_append, jsReplaceAllAux, List.isPrefixOf, hx2, Bool.false_and,
      Bool.false_eq_true, if_false]
    exact congrArg _ (replaceAux_no_tilde d rep l rest (fun y hy => h y (by simp [hy])))

theorem unesc1 : ∀ s : List Char,
    jsReplaceAllAux ['~', '1'] ['/'] 0 (concatMap encEsc s) = concatMap midEsc s
  | [] => rfl
  | c :: s => by
    by_cases h1 : c = '~'
    · subst h1
      show jsReplaceAllAux ['~', '1'] ['/'] 0 ('~' :: '0' :: concatMap encEsc s) = _
      have hpre : (['~', '1'].isPrefixOf ('~' :: '0' :: concatMap encEsc s)) = false := by
        simp [List.isPrefixOf]
      simp only [jsReplaceAllAux, hpre, Bool.false_eq_true, if_false]
      have hpre2 : (['~', '1'].isPrefixOf ('0' :: concatMap encEsc s)) = false := by
        simp [List.isPrefixOf]
      simp only [jsReplaceAllAux, hpre2, Bool.false_eq_true, if_false]
      rw [unesc1 s]
      rfl
    · by_cases h2 : c = '/'
      · subst h2
        show jsReplaceAllAux ['~', '1'] ['/'] 0 ('~' :: '1' :: concatMap encEsc s) = _
        have hpre : (['~', '1'].isPrefixOf ('~' :: '1' :: concatMap encEsc s)) = true := by
          simp [List.isPrefixOf]
        simp only [jsReplaceAllAux, hpre, if_true, List.length_cons, List.length_singleton,
          List.length_nil]
        show '/' :: jsReplaceAllAux ['~', '1'] ['/'] 1 ('1' :: concatMap encEsc s) = _
        simp only [jsReplaceAllAux]
        rw [unesc1 s]
        rfl
      · show jsReplaceAllAux ['~', '1'] ['/'] 0 (encEsc c ++ concatMap encEsc s) = _
        rw [show encEsc c = encChar c from by simp [encEsc, h1, h2]]
        rw [replaceAux_no_tilde '1' ['/'] (encChar c) _
          (fun x hx => mem_encChar_ne_tilde c x h1 hx)]
        rw [unesc1 s]
        show encChar c ++ concatMap midEsc s = midEsc c ++ concatMap midEsc s
        rw [show midEsc c = encChar c from by simp [midEsc, h1, h2]]

theorem unesc2 : ∀ s : List Char,
    jsReplaceAllAux ['~', '0'] ['~'] 0 (concatMap midEsc s) = concatMap decEsc s
  | [] => rfl
  | c :: s => by
    by_cases h1 : c = '~'
    · subst h1
      show jsReplaceAllAux ['~', '0'] ['~'] 0 ('~' :: '0' :: concatMap midEsc s) = _
      have hpre : (['~', '0'].isPrefixOf ('~' :: '0' :: concatMap midEsc s)) = true := by
        simp [List.isPrefixOf]
      simp only [jsReplaceAllAux, hpre, if_true]
      show '~' :: jsReplaceAllAux ['~', '0'] ['~'] 1 ('0' :: concatMap midEsc s) = _
      simp only [jsReplaceAllAux]
      rw [unesc2 s]
      rfl
    · by_cases h2 : c = '/'
      · subst h2
        show jsReplaceAllAux ['~', '0'] ['~'] 0 ('/' :: concatMap midEsc s) = _
        have hpre : (['~', '0'].isPrefixOf ('/' :: concatMap midEsc s)) = false := by
          simp [List.isPrefixOf]
        simp only [jsReplaceAllAux, hpre, Bool.false_eq_true, if_false]
        rw [unesc2 s]
        rfl
      · show jsReplaceAllAux ['~', '0'] ['~'] 0 (midEsc c ++ concatMap midEsc s) = _
        rw [show midEsc c = encChar c from by simp [midEsc, h1, h2]]
        rw [replaceAux_no_tilde '0' ['~'] (encChar c) _
          (fun x hx => mem_encChar_ne_tilde c x h1 hx)]
        rw [unesc2 s]
        show encChar c ++ concatMap decEsc s = decEsc c ++ concatMap decEsc s
        rw [show decEsc c = encChar c from by simp [decEsc, h1, h2]]

theorem parsePointerToken_enc (s : List Char) :
    parsePointerToken (concatMap encEsc s) =
      decodeSM .plain (concatMap decEsc s) := by
  unfold parsePointerToken jsReplaceAll
  rw [unesc1 s, unesc2 s]
  rfl


theorem hexVal_toHexDigit : ∀ n, n < 16 → hexVal (toHexDigit n) = some n := by decide

theorem decodeSM_hexPair_lead (b : Nat) (hb : b < 256) (rest : List Char) :
    decodeSM (.hexHi .lead) (toHexDigit (b / 16) :: toHexDigit (b % 16) :: rest) =
      (if b < 0x80 then
        match decodeSM .plain rest with
        | .ok tail => .ok (Char.ofNat b :: tail)
        | .error e => .error e
      else if b < 0xC0 then .error ()
      else if b < 0xE0 then decodeSM (.needPct 1 (b - 0xC0) 0x80) rest
      else if b < 0xF0 then decodeSM (.needPct 2 (b - 0xE0) 0x800) rest
      else if b < 0xF8 then decodeSM (.needPct 3 (b - 0xF0) 0x10000) rest
      else .error ()) := by
  simp only [decodeSM, hexVal_toHexDigit (b / 16) (by omega),
    hexVal_toHexDigit (b % 16) (by omega)]
  rw [show 16 * (b / 16) + b % 16 = b from by omega]

theorem decodeSM_hexPair_cont (rem v minV b : Nat) (hb : b < 256) (rest : List Char) :
    decodeSM (.hexHi (.contK rem v minV))
      (toHexDigit (b / 16) :: toHexDigit (b % 16) :: rest) =
      (if 0x80 ≤ b ∧ b < 0xC0 then
        match rem with
        | 1 =>
          if v * 0x40 + (b - 0x80) < minV then .error ()
          else if 0xD800 ≤ v * 0x40 + (b - 0x80) ∧ v * 0x40 + (b - 0x80) < 0xE000 then
            .error ()
          else if 0x10FFFF < v * 0x40 + (b - 0x80) then .error ()
          else
            match decodeSM .plain rest with
            | .ok tail => .ok (Char.ofNat (v * 0x40 + (b - 0x80)) :: tail)
            | .error e => .error e
        | rem2 + 2 => decodeSM (.needPct (rem2 + 1) (v * 0x40 + (b - 0x80)) minV) rest
        | 0 => .error ()
      else .error ()) := by
  simp only [decodeSM, hexVal_toHexDigit (b / 16) (by omega),
    hexVal_toHexDigit (b % 16) (by omega)]
  rw [show 16 * (b / 16) + b % 16 = b from by omega]

theorem decode_utf8_roundtrip (c : Char) (rest : List Char) :
    decodeSM .plain (concatMap pctEncodeByte (utf8Bytes c) ++ rest) =
      match decodeSM .plain rest with
      | .ok tail => .ok (c :: tail)
      | .error e => .error e := by
  have hv := char_valid_nat c
  by_cases h1 : c.toNat < 0x80
  · rw [show utf8Bytes c = [c.toNat] from by simp [utf8Bytes, h1]]
    show decodeSM .plain ('%' :: toHexDigit (c.toNat / 16) ::
      toHexDigit (c.toNat % 16) :: rest) = _
    rw [show decodeSM .plain ('%' :: toHexDigit (c.toNat / 16) ::
        toHexDigit (c.toNat % 16) :: rest) =
      decodeSM (.hexHi .lead) (toHexDigit (c.toNat / 16) ::
        toHexDigit (c.toNat % 16) :: rest) from by simp [decodeSM]]
    rw [decodeSM_hexPair_lead c.toNat (by omega) rest, if_pos h1, Char.ofNat_toNat]
  · by_cases h2 : c.toNat < 0x800
    · rw [show utf8Bytes c = [0xC0 + c.toNat / 0x40, 0x80 + c.toNat % 0x40] from by
        simp [utf8Bytes, h1, h2]]
      show decodeSM .plain ('%' :: toHexDigit ((0xC0 + c.toNat / 0x40) / 16) ::
        toHexDigit ((0xC0 + c.toNat / 0x40) % 16) ::
        ('%' :: toHexDigit ((0x80 + c.toNat % 0x40) / 16) ::
          toHexDigit ((0x80 + c.toNat % 0x40) % 16) :: rest)) = _
      rw [show ∀ t, decodeSM .plain ('%' :: t) = decodeSM (.hexHi .lead) t from
        fun t => by simp [decodeSM]]
      rw [decodeSM_hexPair_lead (0xC0 + c.toNat / 0x40) (by omega)]
      rw [if_neg (by omega), if_neg (by omega), if_pos (by omega)]
      show decodeSM (.needPct 1 (0xC0 + c.toNat / 0x40 - 0xC0) 0x80) ('%' :: _) = _
      rw [show decodeSM (.needPct 1 (0xC0 + c.toNat / 0x40 - 0xC0) 0x80)
          ('%' :: toHexDigit ((0x80 + c.toNat % 0x40) / 16) ::
            toHexDigit ((0x80 + c.toNat % 0x40) % 16) :: rest) =
        decodeSM (.hexHi (.contK 1 (0xC0 + c.toNat / 0x40 - 0xC0) 0x80))
          (toHexDigit ((0x80 + c.toNat % 0x40) / 16) ::
            toHexDigit ((0x80 + c.toNat % 0x40) % 16) :: rest) from by simp [decodeSM]]
      rw [decodeSM_hexPair_cont 1 (0xC0 + c.toNat / 0x40 - 0xC0) 0x80
        (0x80 + c.toNat % 0x40) (by omega) rest]
      rw [if_pos (by omega)]
      rw [show (0xC0 + c.toNat / 0x40 - 0xC0) * 0x40 + (0x80 + c.toNat % 0x40 - 0x80)
        = c.toNat from by omega]
      rw [if_neg (by omega), if_neg (by omega), if_neg (by omega), Char.ofNat_toNat]
    · by_cases h3 : c.toNat < 0x10000
      · rw [show utf8Bytes c = [0xE0 + c.toNat / 0x1000, 0x80 + c.toNat / 0x40 % 0x40,
            0x80 + c.toNat % 0x40] from by simp [utf8Bytes, h1, h2, h3]]
        show decodeSM .plain ('%' :: toHexDigit ((0xE0 + c.toNat / 0x1000) / 16) ::
          toHexDigit ((0xE0 + c.toNat / 0x1000) % 16) ::
          ('%' :: toHexDigit ((0x80 + c.toNat / 0x40 % 0x40) / 16) ::
            toHexDigit ((0x80 + c.toNat / 0x40 % 0x40) % 16) ::
            ('%' :: toHexDigit ((0x80 + c.toNat % 0x40) / 16) ::
              toHexDigit ((0x80 + c.toNat % 0x40) % 16) :: rest))) = _
        rw [show ∀ t, decodeSM .plain ('%' :: t) = decodeSM (.hexHi .lead) t from
          fun t => by simp [decodeSM]]
        rw [decodeSM_hexPair_lead (0xE0 + c.toNat / 0x1000) (by omega)]
        rw [if_neg (by omega), if_neg (by omega), if_neg (by omega), if_pos (by omega)]
        rw [show ∀ r v m t, decodeSM (.needPct r v m) ('%' :: t) =
            decodeSM (.hexHi (.contK r v m)) t from fun r v m t => by simp [decodeSM]]
        rw [decodeSM_hexPair_cont 2 (0xE0 + c.toNat / 0x1000 - 0xE0) 0x800
          (0x80 + c.toNat / 0x40 % 0x40) (by omega)]
        rw [if_pos (by omega)]
        show decodeSM (.needPct 1 ((0xE0 + c.toNat / 0x1000 - 0xE0) * 0x40 +
          (0x80 + c.toNat / 0x40 % 0x40 - 0x80)) 0x800) _ = _
        rw [show (0xE0 + c.toNat / 0x1000 - 0xE0) * 0x40 +
          (0x80 + c.toNat / 0x40 % 0x40 - 0x80) = c.toNat / 0x40 from by omega]
        rw [show ∀ r v m t, decodeSM (.needPct r v m) ('%' :: t) =
            decodeSM (.hexHi (.contK r v m)) t from fun r v m t => by simp [decodeSM]]
        rw [decodeSM_hexPair_cont 1 (c.toNat / 0x40) 0x800
          (0x80 + c.toNat % 0x40) (by omega)]
        rw [if_pos (by omega)]
        rw [show c.toNat / 0x40 * 0x40 + (0x80 + c.toNat % 0x40 - 0x80) = c.toNat
          from by omega]
        rw [if_neg (by omega), if_neg (by omega), if_neg (by omega), Char.ofNat_toNat]
      · rw [show utf8Bytes c = [0xF0 + c.toNat / 0x40000, 0x80 + c.toNat / 0x1000 % 0x40,
            0x80 + c.toNat / 0x40 % 0x40, 0x80 + c.toNat % 0x40] from by
          simp [utf8Bytes, h1, h2, h3]]
        have hub : c.toNat < 0x110000 := by omega
        show decodeSM .plain ('%' :: toHexDigit ((0xF0 + c.toNat / 0x40000) / 16) ::
          toHexDigit ((0xF0 + c.toNat / 0x40000) % 16) ::
          ('%' :: toHexDigit ((0x80 + c.toNat / 0x1000 % 0x40) / 16) ::
            toHexDigit ((0x80 + c.toNat / 0x1000 % 0x40) % 16) ::
            ('%' :: toHexDigit ((0x80 + c.toNat / 0x40 % 0x40) / 16) ::
              toHexDigit ((0x80 + c.toNat / 0x40 % 0x40) % 16) ::
              ('%' :: toHexDigit ((0x80 + c.toNat % 0x40) / 16) ::
                toHexDigit ((0x80 + c.toNat % 0x40) % 16) :: rest)))) = _
        rw [show ∀ t, decodeSM .plain ('%' :: t) = decodeSM (.hexHi .lead) t from
          fun t => by simp [decodeSM]]
        rw [decodeSM_hexPair_lead (0xF0 + c.toNat / 0x40000) (by omega)]
        rw [if_neg (by omega), if_neg (by omega), if_neg (by omega), if_neg (by omega),
          if_pos (by omega)]
        rw [show ∀ r v m t, decodeSM (.needPct r v m) ('%' :: t) =
            decodeSM (.hexHi (.contK r v m)) t from fun r v m t => by simp [decodeSM]]
        rw [decodeSM_hexPair_cont 3 (0xF0 + c.toNat / 0x40000 - 0xF0) 0x10000
          (0x80 + c.toNat / 0x1000 % 0x40) (by omega)]
        rw [if_pos (by omega)]
        show decodeSM (.needPct 2 ((0xF0 + c.toNat / 0x40000 - 0xF0) * 0x40 +
          (0x80 + c.toNat / 0x1000 % 0x40 - 0x80)) 0x10000) _ = _
        rw [show (0xF0 + c.toNat / 0x40000 - 0xF0) * 0x40 +
          (0x80 + c.toNat / 0x1000 % 0x40 - 0x80) = c.toNat / 0x1000 from by omega]
        rw [show ∀ r v m t, decodeSM (.needPct r v m) ('%' :: t) =
            decodeSM (.hexHi (.contK r v m)) t from fun r v m t => by simp [decodeSM]]
        rw [decodeSM_hexPair_cont 2 (c.toNat / 0x1000) 0x10000
          (0x80 + c.toNat / 0x40 % 0x40) (by omega)]
        rw [if_pos (by omega)]
        show decodeSM (.needPct 1 (c.toNat / 0x1000 * 0x40 +
          (0x80 + c.toNat / 0x40 % 0x40 - 0x80)) 0x10000) _ = _
        rw [show c.toNat / 0x1000 * 0x40 + (0x80 + c.toNat / 0x40 % 0x40 - 0x80) =
          c.toNat / 0x40 from by omega]
        rw [show ∀ r v m t, decodeSM (.needPct r v m) ('%' :: t) =
            decodeSM (.hexHi (.contK r v m)) t from fun r v m t => by simp [decodeSM]]
        rw [decodeSM_hexPair_cont 1 (c.toNat / 0x40) 0x10000
          (0x80 + c.toNat % 0x40) (by omega)]
        rw [if_pos (by omega)]
        rw [show c.toNat / 0x40 * 0x40 + (0x80 + c.toNat % 0x40 - 0x80) = c.toNat
          from by omega]
        rw [if_neg (by omega), if_neg (by omega), if_neg (by omega), Char.ofNat_toNat]


theorem uriUnescaped_ne_pct (c : Char) (h : uriUnescaped c = true) : c ≠ '%' := by
  intro hc
  rw [hc] at h
  exact absurd h (by decide)

theorem decodeSM_decEsc : ∀ s : List Char, decodeSM .plain (concatMap decEsc s) = .ok s
  | [] => rfl
  | c :: s => by
    by_cases h1 : c = '~'
    · subst h1
      show decodeSM .plain ('~' :: concatMap decEsc s) = _
      simp only [decodeSM, if_neg (by decide : ¬ ('~' : Char) = '%'),
        decodeSM_decEsc s]
    · by_cases h2 : c = '/'
      · subst h2
        show decodeSM .plain ('/' :: concatMap decEsc s) = _
        simp only [decodeSM, if_neg (by decide : ¬ ('/' : Char) = '%'),
          decodeSM_decEsc s]
      · rw [show concatMap decEsc (c :: s) = encChar c ++ concatMap decEsc s from by
          show decEsc c ++ concatMap decEsc s = _
          rw [show decEsc c = encChar c from by simp [decEsc, h1, h2]]]
        unfold encChar
        split
        · rename_i hu
          rw [List.singleton_append]
          have hcp : ¬ c = '%' := uriUnescaped_ne_pct c hu
          simp only [decodeSM, if_neg hcp, decodeSM_decEsc s]
        · rw [decode_utf8_roundtrip c (concatMap decEsc s), decodeSM_decEsc s]

theorem mem_encEsc_ne_slash (c x : Char) (hx : x ∈ encEsc c) : x ≠ '/' := by
  unfold encEsc at hx
  split at hx
  · simp only [List.mem_cons, List.not_mem_nil, or_false] at hx
    rcases hx with h | h <;> (rw [h]; decide)
  · split at hx
    · simp only [List.mem_cons, List.not_mem_nil, or_false] at hx
      rcases hx with h | h <;> (rw [h]; decide)
    · rename_i h1 h2
      exact mem_encChar_ne_slash c x h2 hx

theorem splitChar_no_sep (sep : Char) : ∀ s : List Char, sep ∉ s →
    splitChar sep s = [s]
  | [], _ => rfl
  | c :: s, h => by
    have hc : c ≠ sep := fun hh => h (hh ▸ List.mem_cons_self c s)
    simp only [splitChar, if_neg hc,
      splitChar_no_sep sep s (fun hh => h (List.mem_cons_of_mem c hh))]

theorem splitChar_joinSlash : ∀ segs : List (List Char), segs ≠ [] →
    (∀ s ∈ segs, '/' ∉ s) → splitChar '/' (joinSlash segs) = segs
  | [], h, _ => absurd rfl h
  | [s], _, hall => by
    simp only [joinSlash]
    exact splitChar_no_sep '/' s (hall s (by simp))
  | s :: s2 :: rest, _, hall => by
    show splitChar '/' (s ++ '/' :: joinSlash (s2 :: rest)) = _
    rw [splitChar_append_sep '/' s _ (hall s (by simp))]
    rw [splitChar_joinSlash (s2 :: rest) (by simp)
      (fun x hx => hall x (List.mem_cons_of_mem s hx))]

theorem mapExcept_parsePointer_tokens : ∀ t : List String,
    mapExcept (fun i =>
      match parsePointerToken i with
      | .error e => .error e
      | .ok l => .ok (String.mk l))
      (t.map fun tok => concatMap encEsc tok.toList) = .ok t
  | [] => rfl
  | tok :: t => by
    simp only [List.map_cons, mapExcept]
    rw [parsePointerToken_enc tok.toList, decodeSM_decEsc tok.toList]
    simp only [mk_toList]
    rw [mapExcept_parsePointer_tokens t]

/-- C5: pointer encode/decode round-trip, with the spec's escaping
examples: building a pointer from any sequence of string tokens (however
many `/` and `~` they contain) and parsing it back returns exactly the
original tokens. -/
theorem pointer_roundtrip :
    buildPointer [Key.str "a/b", Key.str "c~d"] = "/a~1b/c~0d" ∧
    parsePointer "/a~1b/c~0d" = .ok ["a/b", "c~d"] ∧
    ∀ t : List String, parsePointer (buildPointer (t.map Key.str)) = .ok t := by
  refine ⟨rfl, rfl, ?_⟩
  intro t
  cases t with
  | nil => rfl
  | cons tok t =>
    have himg : ∀ u : List String,
        (u.map fun x => buildPointerToken (Key.str x)) =
          u.map fun x => concatMap encEsc x.toList := by
      intro u
      induction u with
      | nil => rfl
      | cons a u ih => simp only [List.map_cons, buildPointerToken_eq, ih]
    have hb : buildPointer ((tok :: t).map Key.str) =
        String.mk ('/' :: joinSlash ((tok :: t).map fun x => concatMap encEsc x.toList)) := by
      unfold buildPointer
      simp only [List.map_cons, List.map_map]
      rw [show (fun x => buildPointerToken (Key.str x)) =
        buildPointerToken ∘ Key.str from rfl] at himg
      rw [buildPointerToken_eq tok, himg t]
    have hsplit : splitChar '/' ('/' :: joinSlash
        ((tok :: t).map fun x => concatMap encEsc x.toList)) =
        [] :: ((tok :: t).map fun x => concatMap encEsc x.toList) := by
      rw [show splitChar '/' ('/' :: joinSlash
          ((tok :: t).map fun x => concatMap encEsc x.toList)) =
        [] :: splitChar '/' (joinSlash
          ((tok :: t).map fun x => concatMap encEsc x.toList)) from by
        simp [splitChar]]
      rw [splitChar_joinSlash _ (by simp) ?hns]
      case hns =>
        intro s2 hs2 hmem
        simp only [List.mem_map] at hs2
        obtain ⟨x, hxmem, hxeq⟩ := hs2
        obtain ⟨cc, hcc, hcm⟩ := mem_concatMap encEsc x.toList '/' (hxeq ▸ hmem)
        exact mem_encEsc_ne_slash cc '/' hcm rfl
    rw [hb]
    unfold parsePointer
    rw [toList_mk, hsplit]
    simp only [List.map_cons, mapExcept]
    rw [parsePointerToken_enc tok.toList, decodeSM_decEsc tok.toList,
      mapExcept_parsePointer_tokens t]
    rfl


/-! ### `posixNormalize` is `normSegs` over the `/`-split of its input -/

theorem jsLastIndexOf_neg (c : Char) : ∀ s : List Char, c ∉ s →
    jsLastIndexOf s c = -1
  | [], _ => rfl
  | x :: s, h => by
    have hx : x ≠ c := fun hh => h (hh ▸ List.mem_cons_self x s)
    have hr : jsLastIndexOf s c = -1 :=
      jsLastIndexOf_neg c s (fun hh => h (List.mem_cons_of_mem x hh))
    simp only [jsLastIndexOf, hr]
    norm_num
    exact fun hh => absurd hh hx

theorem jsLastIndexOf_append_pos (c : Char) :
    ∀ (l m : List Char), 0 ≤ jsLastIndexOf m c →
    jsLastIndexOf (l ++ m) c = l.length + jsLastIndexOf m c
  | [], m, _ => by simp
  | x :: l, m, h => by
    have hr := jsLastIndexOf_append_pos c l m h
    simp only [List.cons_append, jsLastIndexOf, List.append_eq, hr]
    rw [if_pos (by omega)]
    simp only [List.length_cons]
    push_cast
    omega

theorem jsLastIndexOf_sep_cons (s : List Char) (h : '/' ∉ s) :
    jsLastIndexOf ('/' :: s) '/' = 0 := by
  simp [jsLastIndexOf, jsLastIndexOf_neg '/' s h]

theorem joinSlash_concat : ∀ (acc : List (List Char)) (s : List Char), acc ≠ [] →
    joinSlash (acc ++ [s]) = joinSlash acc ++ '/' :: s
  | [], _, h => absurd rfl h
  | [t], s, _ => rfl
  | t :: t2 :: acc, s, _ => by
    show t ++ '/' :: joinSlash ((t2 :: acc) ++ [s]) =
      (t ++ '/' :: joinSlash (t2 :: acc)) ++ '/' :: s
    rw [joinSlash_concat (t2 :: acc) s (by simp)]
    simp

theorem joinSlash_length_pos (acc : List (List Char)) (hne : acc ≠ [])
    (hs : ∀ s ∈ acc, s ≠ []) : 0 < (joinSlash acc).length := by
  rcases acc.eq_nil_or_concat with h | ⟨acc0, s, h⟩
  · exact absurd h hne
  · rw [List.concat_eq_append] at h
    subst h
    rcases List.eq_nil_or_concat acc0 with h0 | ⟨acc1, t, h0⟩
    · subst h0
      have hne2 : s ≠ [] := hs s (by simp)
      show 0 < (joinSlash [s]).length
      simp only [joinSlash]
      cases s with
      | nil => exact absurd rfl hne2
      | cons a b => simp
    · rw [List.concat_eq_append] at h0
      rw [joinSlash_concat _ s (by subst h0; simp)]
      simp

theorem lastLen_concat (acc : List (List Char)) (s : List Char) :
    lastLen (acc ++ [s]) = s.length := by
  simp [lastLen]

theorem lastLen_formula (acc : List (List Char)) (hs : ∀ s ∈ acc, s ≠ [] ∧ '/' ∉ s) :
    ((joinSlash acc).length - 1 - jsLastIndexOf (joinSlash acc) '/').toNat =
      lastLen acc := by
  rcases acc.eq_nil_or_concat with h | ⟨acc0, s, h⟩
  · subst h; rfl
  · rw [List.concat_eq_append] at h
    subst h
    have hsne : s ≠ [] := (hs s (by simp)).1
    have hsl : '/' ∉ s := (hs s (by simp)).2
    rcases List.eq_nil_or_concat acc0 with h0 | ⟨acc1, t, h0⟩
    · subst h0
      show ((joinSlash [s]).length - 1 - jsLastIndexOf (joinSlash [s]) '/').toNat = _
      simp only [joinSlash]
      rw [jsLastIndexOf_neg '/' s hsl, show ([] : List (List Char)) ++ [s] = [s] from rfl,
        lastLen]
      have : 0 < s.length := List.length_pos.2 hsne
      simp only [List.getLast?_singleton]
      omega
    · rw [List.concat_eq_append] at h0
      have hne0 : acc0 ≠ [] := by subst h0; simp
      rw [joinSlash_concat acc0 s hne0, lastLen_concat]
      rw [jsLastIndexOf_append_pos '/' (joinSlash acc0) ('/' :: s)
        (by rw [jsLastIndexOf_sep_cons s hsl]),
        jsLastIndexOf_sep_cons s hsl]
      simp only [List.length_append, List.length_cons]
      omega


theorem dotsVal_eq_one (seg : List Char) : dotsVal seg = 1 ↔ seg = ['.'] := by
  constructor
  · intro h
    unfold dotsVal at h
    split at h
    · rename_i hall
      have hlen : seg.length = 1 := by omega
      obtain ⟨c, hc⟩ := List.length_eq_one.1 hlen
      subst hc
      simp only [List.all_cons, List.all_nil, Bool.and_true, beq_iff_eq] at hall
      rw [hall]
    · omega
  · intro h; subst h; rfl

theorem dotsVal_eq_two (seg : List Char) : dotsVal seg = 2 ↔ seg = ['.', '.'] := by
  constructor
  · intro h
    unfold dotsVal at h
    split at h
    · rename_i hall
      have hlen : seg.length = 2 := by omega
      match seg, hlen with
      | [c1, c2], _ =>
        simp only [List.all_cons, List.all_nil, Bool.and_true, Bool.and_eq_true,
          beq_iff_eq] at hall
        rw [hall.1, hall.2]
    · omega
  · intro h; subst h; rfl

theorem segStep_dotdot_pop (allow : Bool) (acc0 : List (List Char)) (s : List Char)
    (hdd : s ≠ ['.', '.']) :
    segStep allow (acc0 ++ [s]) ['.', '.'] = acc0 := by
  rw [segStep, if_neg (by simp), if_pos rfl,
    if_pos ⟨by simp, by rw [List.getLast?_concat]; simp [hdd]⟩, List.dropLast_concat]

theorem segStep_dotdot_keep (allow : Bool) (acc : List (List Char))
    (h : acc = [] ∨ acc.getLast? = some ['.', '.']) :
    segStep allow acc ['.', '.'] = if allow then acc ++ [['.', '.']] else acc := by
  rw [segStep, if_neg (by simp), if_pos rfl, if_neg (by
    rcases h with h | h
    · simp [h]
    · simp [h])]

theorem segStep_real (allow : Bool) (acc : List (List Char)) (seg : List Char)
    (h1 : ¬ (seg = [] ∨ seg = ['.'])) (h2 : seg ≠ ['.', '.']) :
    segStep allow acc seg = acc ++ [seg] := by
  rw [segStep, if_neg h1, if_neg h2]

theorem slashStep_eq_segStep (allow : Bool) (acc : List (List Char)) (seg : List Char)
    (hacc : ∀ s ∈ acc, s ≠ [] ∧ '/' ∉ s) (hseg : '/' ∉ seg) :
    slashStep allow (joinSlash acc) (lastLen acc) seg (dotsVal seg) =
      (joinSlash (segStep allow acc seg), lastLen (segStep allow acc seg)) := by
  by_cases h0 : seg = [] ∨ seg = ['.']
  · have hd : seg = [] ∨ dotsVal seg = 1 := by
      rcases h0 with h | h
      · exact Or.inl h
      · exact Or.inr ((dotsVal_eq_one seg).2 h)
    rw [segStep, if_pos h0, slashStep, if_pos hd]
  · push_neg at h0
    by_cases h2 : seg = ['.', '.']
    · subst h2
      have hnd1 : ¬ (['.', '.'] = ([] : List Char) ∨ dotsVal ['.', '.'] = 1) := by decide
      have hd2 : dotsVal ['.', '.'] = 2 := by decide
      rcases acc.eq_nil_or_concat with hA | ⟨acc0, s, hA⟩
      · subst hA
        rw [segStep_dotdot_keep allow [] (Or.inl rfl)]
        rw [slashStep, if_neg hnd1, if_pos hd2, if_pos (by decide),
          if_neg (by decide), if_neg (by decide)]
        unfold dotdotAppend
        cases allow with
        | true => rfl
        | false => rfl
      · rw [List.concat_eq_append] at hA
        subst hA
        have hsne : s ≠ [] := (hacc s (by simp)).1
        have hsl : '/' ∉ s := (hacc s (by simp)).2
        have hacc0 : ∀ t ∈ acc0, t ≠ [] ∧ '/' ∉ t :=
          fun t ht => hacc t (List.mem_append_left _ ht)
        have hane : acc0 ++ [s] ≠ [] := by simp
        have hLpos : 0 < (joinSlash (acc0 ++ [s])).length :=
          joinSlash_length_pos _ hane (fun t ht => (hacc t ht).1)
        by_cases hdd : s = ['.', '.']
        · subst hdd
          have hcond : ¬ ((joinSlash (acc0 ++ [['.', '.']])).length < 2 ∨
              lastLen (acc0 ++ [['.', '.']]) ≠ 2 ∨
              (joinSlash (acc0 ++ [['.', '.']])).getLast? ≠ some '.' ∨
              (joinSlash (acc0 ++ [['.', '.']])).dropLast.getLast? ≠ some '.') := by
            rcases List.eq_nil_or_concat acc0 with h00 | ⟨acc1, t, h00⟩
            · subst h00
              simp [joinSlash, lastLen]
            · have hne0 : acc0 ≠ [] := by rw [h00]; simp
              rw [joinSlash_concat acc0 _ hne0, lastLen_concat]
              push_neg
              refine ⟨by simp, rfl, ?_, ?_⟩
              · rw [List.getLast?_append]; rfl
              · rw [List.dropLast_append]
                simp only [List.isEmpty_cons, Bool.false_eq_true, if_false]
                rw [List.getLast?_append]
                rfl
          rw [segStep_dotdot_keep allow _ (Or.inr (List.getLast?_concat acc0))]
          rw [slashStep, if_neg hnd1, if_pos hd2, if_neg hcond]
          unfold dotdotAppend
          cases allow with
          | true =>
            rw [if_pos rfl, if_pos hLpos, if_pos rfl]
            rw [joinSlash_concat _ _ hane, lastLen_concat]
            rfl
          | false =>
            rw [if_neg (by simp), if_neg (by simp)]
        · rw [segStep_dotdot_pop allow acc0 s hdd]
          have hcond : (joinSlash (acc0 ++ [s])).length < 2 ∨
              lastLen (acc0 ++ [s]) ≠ 2 ∨
              (joinSlash (acc0 ++ [s])).getLast? ≠ some '.' ∨
              (joinSlash (acc0 ++ [s])).dropLast.getLast? ≠ some '.' := by
            by_cases hlen2 : s.length = 2
            · match s, hlen2 with
              | [c1, c2], _ =>
                have hcc : ¬ (c1 = '.' ∧ c2 = '.') := by
                  intro hcc2
                  exact hdd (by rw [hcc2.1, hcc2.2])
                rcases List.eq_nil_or_concat acc0 with h00 | ⟨acc1, t, h00⟩
                · subst h00
                  by_cases e2 : c2 = '.'
                  · have e1 : ¬ c1 = '.' := fun e1 => hcc ⟨e1, e2⟩
                    refine Or.inr (Or.inr (Or.inr ?_))
                    simp [joinSlash, e1]
                  · refine Or.inr (Or.inr (Or.inl ?_))
                    simp [joinSlash, e2]
                · have hne0 : acc0 ≠ [] := by rw [h00]; simp
                  rw [joinSlash_concat acc0 _ hne0]
                  by_cases e2 : c2 = '.'
                  · have e1 : ¬ c1 = '.' := fun e1 => hcc ⟨e1, e2⟩
                    refine Or.inr (Or.inr (Or.inr ?_))
                    rw [List.dropLast_append]
                    simp only [List.isEmpty_cons, Bool.false_eq_true, if_false]
                    rw [List.getLast?_append]
                    simp [e1]
                  · refine Or.inr (Or.inr (Or.inl ?_))
                    rw [List.getLast?_append]
                    simp [e2]
            · exact Or.inr (Or.inl (by rw [lastLen_concat]; exact hlen2))
          rcases List.eq_nil_or_concat acc0 with h00 | ⟨acc1, t, h00⟩
          · subst h00
            have hres : joinSlash ([] ++ [s]) = s := rfl
            have hspos : 0 < s.length := List.length_pos.2 hsne
            rw [slashStep, if_neg hnd1, if_pos hd2, if_pos hcond, hres, lastLen_concat]
            by_cases hbig : 2 < s.length
            · have hlneg : jsLastIndexOf s '/' = -1 := jsLastIndexOf_neg '/' s hsl
              have hne1 : jsLastIndexOf s '/' ≠ (s.length : Int) - 1 := by
                rw [hlneg]; omega
              rw [if_pos hbig, if_pos hne1, if_pos hlneg]
              rfl
            · have h21 : s.length = 2 ∨ s.length = 1 := by omega
              rw [if_neg hbig, if_pos h21]
              rfl
          · have hne0 : acc0 ≠ [] := by rw [h00]; simp
            have hL0 : 0 < (joinSlash acc0).length :=
              joinSlash_length_pos acc0 hne0 (fun t ht => (hacc0 t ht).1)
            have hspos : 0 < s.length := List.length_pos.2 hsne
            have hjoin : joinSlash (acc0 ++ [s]) = joinSlash acc0 ++ '/' :: s :=
              joinSlash_concat acc0 s hne0
            have hlio : jsLastIndexOf (joinSlash acc0 ++ '/' :: s) '/' =
                ((joinSlash acc0).length : Int) := by
              rw [jsLastIndexOf_append_pos '/' _ _ (by rw [jsLastIndexOf_sep_cons s hsl]),
                jsLastIndexOf_sep_cons s hsl]
              omega
            have hlen3 : 2 < (joinSlash acc0 ++ '/' :: s).length := by
              simp only [List.length_append, List.length_cons]
              omega
            have hne1 : jsLastIndexOf (joinSlash acc0 ++ '/' :: s) '/' ≠
                ((joinSlash acc0 ++ '/' :: s).length : Int) - 1 := by
              rw [hlio]
              simp only [List.length_append, List.length_cons]
              push_cast
              omega
            have hnem1 : jsLastIndexOf (joinSlash acc0 ++ '/' :: s) '/' ≠ -1 := by
              rw [hlio]
              omega
            rw [slashStep, if_neg hnd1, if_pos hd2, if_pos hcond, hjoin, lastLen_concat,
              if_pos hlen3, if_pos hne1, if_neg hnem1, hlio]
            rw [show (((joinSlash acc0).length : Int)).toNat = (joinSlash acc0).length
              from by omega]
            rw [List.take_left (joinSlash acc0) ('/' :: s)]
            rw [lastLen_formula acc0 hacc0]
    · have hd1 : ¬ (seg = [] ∨ dotsVal seg = 1) := by
        push_neg
        exact ⟨h0.1, fun h => h0.2 ((dotsVal_eq_one seg).1 h)⟩
      have hd2 : ¬ dotsVal seg = 2 := fun h => h2 ((dotsVal_eq_two seg).1 h)
      rw [segStep_real allow acc seg (by push_neg; exact h0) h2]
      rcases acc.eq_nil_or_concat with hA | ⟨acc0, s, hA⟩
      · subst hA
        rw [slashStep, if_neg hd1, if_neg hd2, if_neg (by simp [joinSlash])]
        rfl
      · rw [List.concat_eq_append] at hA
        subst hA
        have hane : acc0 ++ [s] ≠ [] := by simp
        rw [slashStep, if_neg hd1, if_neg hd2,
          if_pos (joinSlash_length_pos _ hane (fun t ht => (hacc t ht).1))]
        rw [joinSlash_concat _ seg hane, lastLen_concat]


theorem toNat_eq_iff (c d : Char) : c.toNat = d.toNat ↔ c = d := by
  constructor
  · intro h
    rw [← Char.ofNat_toNat c, h, Char.ofNat_toNat]
  · intro h; rw [h]

theorem dotsVal_append_dot (seg : List Char) (h : dotsVal seg ≠ -1) :
    dotsVal (seg ++ ['.']) = dotsVal seg + 1 := by
  have hall : seg.all (fun x => x == '.') = true := by
    by_contra hno
    apply h
    unfold dotsVal
    rw [if_neg hno]
  have hall2 : (seg ++ ['.']).all (fun x => x == '.') = true := by
    simp [List.all_append, hall]
  unfold dotsVal
  rw [if_pos hall, if_pos hall2]
  simp only [List.length_append, List.length_cons, List.length_nil]
  push_cast
  ring

theorem dotsVal_append_other (seg : List Char) (c : Char)
    (h : ¬ (c = '.' ∧ dotsVal seg ≠ -1)) : dotsVal (seg ++ [c]) = -1 := by
  have hno : ¬ ((seg ++ [c]).all (fun x => x == '.') = true) := by
    intro hall
    simp only [List.all_append, List.all_cons, List.all_nil, Bool.and_true,
      Bool.and_eq_true, beq_iff_eq] at hall
    apply h
    refine ⟨hall.2, ?_⟩
    unfold dotsVal
    rw [if_pos hall.1]
    omega
  unfold dotsVal
  rw [if_neg hno]

theorem mem_splitChar_no_sep (sep : Char) : ∀ (l s : List Char),
    s ∈ splitChar sep l → sep ∉ s
  | [], s, hs => by
    simp only [splitChar, List.mem_singleton] at hs
    rw [hs]
    simp
  | c :: rest, s, hs => by
    by_cases hc : c = sep
    · simp only [splitChar, if_pos hc, List.mem_cons] at hs
      rcases hs with hs | hs
      · rw [hs]; simp
      · exact mem_splitChar_no_sep sep rest s hs
    · simp only [splitChar, if_neg hc] at hs
      cases hrec : splitChar sep rest with
      | nil => exact absurd hrec (splitChar_ne_nil sep rest)
      | cons s0 ss =>
        rw [hrec] at hs
        simp only [List.mem_cons] at hs
        rcases hs with hs | hs
        · rw [hs]
          intro hmem
          rcases List.mem_cons.1 hmem with h | h
          · exact hc h.symm
          · exact mem_splitChar_no_sep sep rest s0 (by rw [hrec]; simp) h
        · exact mem_splitChar_no_sep sep rest s (by rw [hrec]; simp [hs])

theorem segStep_good (allow : Bool) (acc : List (List Char)) (seg : List Char)
    (hacc : ∀ s ∈ acc, s ≠ [] ∧ '/' ∉ s) (hseg : '/' ∉ seg) :
    ∀ s ∈ segStep allow acc seg, s ≠ [] ∧ '/' ∉ s := by
  intro s hs
  unfold segStep at hs
  split at hs
  · exact hacc s hs
  · rename_i h1
    split at hs
    · rename_i h2
      split at hs
      · exact hacc s (List.dropLast_subset _ hs)
      · split at hs
        · rcases List.mem_append.1 hs with h | h
          · exact hacc s h
          · rw [List.mem_singleton.1 h, h2]
            exact ⟨by simp, by decide⟩
        · exact hacc s hs
    · rcases List.mem_append.1 hs with h | h
      · exact hacc s h
      · rw [List.mem_singleton.1 h]
        refine ⟨?_, hseg⟩
        intro hnil
        exact h1 (Or.inl hnil)

theorem posixLoop_eq_normSegs (allow : Bool) : ∀ (rest : List Char)
    (acc : List (List Char)) (seg : List Char) (code : Option Nat),
    (∀ s ∈ acc, s ≠ [] ∧ '/' ∉ s) → '/' ∉ seg → (code = some SLASH → seg = []) →
    posixLoop allow rest (joinSlash acc) (lastLen acc) seg (dotsVal seg) code =
      joinSlash (normSegs allow acc (splitChar '/' (seg ++ rest)))
  | [], acc, seg, code, hacc, hseg, hcode => by
    by_cases hc : code = some SLASH
    · have hsegnil := hcode hc
      subst hsegnil
      rw [show posixLoop allow [] (joinSlash acc) (lastLen acc) [] (dotsVal []) code =
        joinSlash acc from by rw [posixLoop, if_pos hc]]
      rw [show splitChar '/' (([] : List Char) ++ []) = [[]] from rfl]
      rw [show normSegs allow acc [[]] = segStep allow acc [] from rfl]
      rw [segStep, if_pos (Or.inl rfl)]
    · rw [show posixLoop allow [] (joinSlash acc) (lastLen acc) seg (dotsVal seg) code =
        (slashStep allow (joinSlash acc) (lastLen acc) seg (dotsVal seg)).1 from by
          rw [posixLoop, if_neg hc]]
      rw [slashStep_eq_segStep allow acc seg hacc hseg]
      rw [List.append_nil, splitChar_no_sep '/' seg hseg]
      rfl
  | c :: rest2, acc, seg, code, hacc, hseg, hcode => by
    by_cases hsl : c.toNat = SLASH
    · have hcs : c = '/' := (toNat_eq_iff c '/').1 hsl
      rw [show posixLoop allow (c :: rest2) (joinSlash acc) (lastLen acc) seg
          (dotsVal seg) code =
        posixLoop allow rest2
          (slashStep allow (joinSlash acc) (lastLen acc) seg (dotsVal seg)).1
          (slashStep allow (joinSlash acc) (lastLen acc) seg (dotsVal seg)).2 [] 0
          (some SLASH) from by rw [posixLoop, if_pos hsl]]
      rw [slashStep_eq_segStep allow acc seg hacc hseg]
      have hrec := posixLoop_eq_normSegs allow rest2 (segStep allow acc seg) [] (some SLASH)
        (segStep_good allow acc seg hacc hseg) (by simp) (fun _ => rfl)
      rw [show (dotsVal [] : Int) = 0 from rfl] at hrec
      rw [hrec]
      rw [hcs, splitChar_append_sep '/' seg rest2 hseg]
      rfl
    · by_cases hdot : c.toNat = DOT ∧ dotsVal seg ≠ -1
      · have hcd : c = '.' := (toNat_eq_iff c '.').1 hdot.1
        rw [show posixLoop allow (c :: rest2) (joinSlash acc) (lastLen acc) seg
            (dotsVal seg) code =
          posixLoop allow rest2 (joinSlash acc) (lastLen acc) (seg ++ [c])
            (dotsVal seg + 1) (some c.toNat) from by
            rw [posixLoop, if_neg hsl, if_pos hdot]]
        rw [show dotsVal seg + 1 = dotsVal (seg ++ [c]) from by
          rw [hcd]; exact (dotsVal_append_dot seg hdot.2).symm]
        have hseg2 : '/' ∉ seg ++ [c] := by
          intro hm
          rcases List.mem_append.1 hm with h | h
          · exact hseg h
          · rw [(List.mem_singleton.1 h).symm] at hsl
            exact hsl rfl
        have hrec := posixLoop_eq_normSegs allow rest2 acc (seg ++ [c]) (some c.toNat)
          hacc hseg2 (fun hh => absurd (by injection hh) hsl)
        rw [hrec, List.append_assoc]
        rfl
      · rw [show posixLoop allow (c :: rest2) (joinSlash acc) (lastLen acc) seg
            (dotsVal seg) code =
          posixLoop allow rest2 (joinSlash acc) (lastLen acc) (seg ++ [c])
            (-1) (some c.toNat) from by
            rw [posixLoop, if_neg hsl, if_neg hdot]]
        rw [show (-1 : Int) = dotsVal (seg ++ [c]) from
          (dotsVal_append_other seg c (by
            intro hcc
            exact hdot ⟨by rw [hcc.1]; decide, hcc.2⟩)).symm]
        have hseg2 : '/' ∉ seg ++ [c] := by
          intro hm
          rcases List.mem_append.1 hm with h | h
          · exact hseg h
          · rw [(List.mem_singleton.1 h).symm] at hsl
            exact hsl rfl
        have hrec := posixLoop_eq_normSegs allow rest2 acc (seg ++ [c]) (some c.toNat)
          hacc hseg2 (fun hh => absurd (by injection hh) hsl)
        rw [hrec, List.append_assoc]
        rfl

theorem posixNormalize_eq (path : String) (allow : Bool) :
    posixNormalize path allow =
      String.mk (joinSlash (normSegs allow [] (splitChar '/' path.toList))) := by
  unfold posixNormalize
  congr 1
  have h := posixLoop_eq_normSegs allow path.toList [] [] none (by simp) (by simp)
    (by simp)
  rw [show joinSlash [] = [] from rfl, show lastLen [] = 0 from rfl,
    show dotsVal [] = 0 from rfl, List.nil_append] at h
  exact h


theorem splitChar_append_last (sep : Char) : ∀ l : List Char,
    splitChar sep (l ++ [sep]) = splitChar sep l ++ [[]]
  | [] => by simp [splitChar]
  | c :: rest => by
    by_cases hc : c = sep
    · simp only [List.cons_append, splitChar, if_pos hc, List.append_eq,
        splitChar_append_last sep rest, List.cons_append]
    · cases hs : splitChar sep rest with
      | nil => exact absurd hs (splitChar_ne_nil sep rest)
      | cons s ss =>
        simp only [List.cons_append, splitChar, if_neg hc, List.append_eq,
          splitChar_append_last sep rest, hs, List.cons_append]

theorem normSegs_append (allow : Bool) : ∀ (xs ys : List (List Char))
    (acc : List (List Char)),
    normSegs allow acc (xs ++ ys) = normSegs allow (normSegs allow acc xs) ys
  | [], _, _ => rfl
  | x :: xs, ys, acc => by
    simp only [List.cons_append, normSegs, List.append_eq, normSegs_append allow xs ys]

theorem segStep_mem (allow : Bool) (acc : List (List Char)) (seg : List Char)
    (s : List Char) (hs : s ∈ segStep allow acc seg) : s ∈ acc ∨ s = seg := by
  unfold segStep at hs
  split at hs
  · exact Or.inl hs
  · split at hs
    · split at hs
      · exact Or.inl (List.dropLast_subset _ hs)
      · split at hs
        · rcases List.mem_append.1 hs with h | h
          · exact Or.inl h
          · exact Or.inr (List.mem_singleton.1 h)
        · exact Or.inl hs
    · rcases List.mem_append.1 hs with h | h
      · exact Or.inl h
      · exact Or.inr (List.mem_singleton.1 h)

theorem normSegs_mem (allow : Bool) : ∀ (segs acc : List (List Char))
    (s : List Char), s ∈ normSegs allow acc segs → s ∈ acc ∨ s ∈ segs
  | [], _, _, hs => Or.inl hs
  | x :: segs, acc, s, hs => by
    rcases normSegs_mem allow segs (segStep allow acc x) s hs with h | h
    · rcases segStep_mem allow acc x s h with h2 | h2
      · exact Or.inl h2
      · exact Or.inr (h2 ▸ List.mem_cons_self x segs)
    · exact Or.inr (List.mem_cons_of_mem x h)

theorem normSegs_good (allow : Bool) : ∀ (segs acc : List (List Char)),
    (∀ s ∈ acc, s ≠ [] ∧ '/' ∉ s) → (∀ s ∈ segs, '/' ∉ s) →
    ∀ s ∈ normSegs allow acc segs, s ≠ [] ∧ '/' ∉ s
  | [], _, hacc, _ => hacc
  | x :: segs, acc, hacc, hsegs =>
    normSegs_good allow segs (segStep allow acc x)
      (segStep_good allow acc x hacc (hsegs x (List.mem_cons_self x segs)))
      (fun s hs => hsegs s (List.mem_cons_of_mem x hs))

/-- Shape invariant of the accumulated segments: a block of `..` (only when
above-root output is allowed) followed by verbatim segments. -/
def NormOut (allow : Bool) (out : List (List Char)) : Prop :=
  ∃ k reals, out = List.replicate k ['.', '.'] ++ reals ∧
    (k ≠ 0 → allow = true) ∧ ∀ s ∈ reals, realSeg s

theorem segStep_normOut (allow : Bool) (out : List (List Char)) (seg : List Char)
    (hno : NormOut allow out) (hseg : '/' ∉ seg) :
    NormOut allow (segStep allow out seg) := by
  obtain ⟨k, reals, hout, hk, hreals⟩ := hno
  unfold segStep
  split
  · exact ⟨k, reals, hout, hk, hreals⟩
  · rename_i h1
    split
    · rename_i h2
      split
      · rename_i h3
        have hrne : reals ≠ [] := by
          intro hnil
          rw [hnil, List.append_nil] at hout
          cases k with
          | zero => rw [hout] at h3; exact h3.1 rfl
          | succ k0 =>
            apply h3.2
            rw [hout, List.getLast?_replicate]
            simp
        refine ⟨k, reals.dropLast, ?_, hk, fun s hs => hreals s (List.dropLast_subset _ hs)⟩
        rw [hout, List.dropLast_append_of_ne_nil _ hrne]
      · rename_i h3
        split
        · have hrnil : reals = [] := by
            by_contra hrne
            rcases reals.eq_nil_or_concat with h | ⟨r0, rl, hr⟩
            · exact hrne h
            · rw [List.concat_eq_append] at hr
              apply h3
              constructor
              · rw [hout, hr]
                simp
              · rw [hout, hr, ← List.append_assoc, List.getLast?_append_cons,
                  List.getLast?_singleton]
                intro hdd
                injection hdd with hdd
                have := hreals rl (by rw [hr]; simp)
                exact this.2.2.1 hdd
          rename_i hallow
          refine ⟨k + 1, [], ?_, fun _ => hallow, by simp⟩
          rw [hout, hrnil, h2, List.append_nil, List.replicate_succ',
            List.append_nil]
        · exact ⟨k, reals, hout, hk, hreals⟩
    · rename_i h2
      refine ⟨k, reals ++ [seg], by rw [hout, List.append_assoc], hk, ?_⟩
      intro s hs
      rcases List.mem_append.1 hs with h | h
      · exact hreals s h
      · rw [List.mem_singleton.1 h]
        exact ⟨fun hh => h1 (Or.inl hh), fun hh => h1 (Or.inr hh), h2, hseg⟩

theorem normSegs_normOut (allow : Bool) : ∀ (segs out : List (List Char)),
    NormOut allow out → (∀ s ∈ segs, '/' ∉ s) →
    NormOut allow (normSegs allow out segs)
  | [], _, hno, _ => hno
  | x :: segs, out, hno, hsegs =>
    normSegs_normOut allow segs (segStep allow out x)
      (segStep_normOut allow out x hno (hsegs x (List.mem_cons_self x segs)))
      (fun s hs => hsegs s (List.mem_cons_of_mem x hs))


theorem segStep_replicate (i : Nat) :
    segStep true (List.replicate i ['.', '.']) ['.', '.'] =
      List.replicate (i + 1) ['.', '.'] := by
  rw [segStep, if_neg (by simp), if_pos rfl]
  cases i with
  | zero => rw [if_neg (by simp)]; rfl
  | succ i0 =>
    rw [if_neg]
    · rw [if_pos rfl]
      exact (List.replicate_succ' (i0 + 1) ['.', '.']).symm
    · intro hc
      apply hc.2
      rw [List.getLast?_replicate]
      simp

theorem normSegs_replicate : ∀ (k i : Nat),
    normSegs true (List.replicate i ['.', '.']) (List.replicate k ['.', '.']) =
      List.replicate (i + k) ['.', '.']
  | 0, i => rfl
  | k + 1, i => by
    rw [List.replicate_succ, normSegs, segStep_replicate i, normSegs_replicate k (i + 1)]
    congr 1
    omega

theorem normSegs_reals (allow : Bool) : ∀ (reals acc : List (List Char)),
    (∀ s ∈ reals, realSeg s) → normSegs allow acc reals = acc ++ reals
  | [], acc, _ => by simp [normSegs]
  | r :: reals, acc, hr => by
    have h1 := hr r (List.mem_cons_self r reals)
    rw [normSegs, segStep_real allow acc r
      (by rintro (h | h); exacts [h1.1 h, h1.2.1 h]) h1.2.2.1]
    rw [normSegs_reals allow reals (acc ++ [r])
      (fun s hs => hr s (List.mem_cons_of_mem r hs))]
    simp

theorem normSegs_fixpoint (allow : Bool) (out : List (List Char))
    (hno : NormOut allow out) : normSegs allow [] out = out := by
  obtain ⟨k, reals, hout, hk, hreals⟩ := hno
  subst hout
  rw [normSegs_append]
  cases k with
  | zero =>
    rw [show normSegs allow [] (List.replicate 0 ['.', '.']) = [] from rfl]
    rw [normSegs_reals allow reals [] hreals]
    rfl
  | succ k0 =>
    have hallow : allow = true := hk (by simp)
    subst hallow
    have h1 : normSegs true [] (List.replicate (k0 + 1) ['.', '.']) =
        List.replicate (k0 + 1) ['.', '.'] := by
      have h2 := normSegs_replicate (k0 + 1) 0
      simpa using h2
    rw [h1, normSegs_reals true reals _ hreals]

theorem joinSlash_head (out : List (List Char)) (s0 : List Char)
    (h : out.head? = some s0) (hne : s0 ≠ []) :
    (joinSlash out).head? = s0.head? := by
  cases out with
  | nil => simp at h
  | cons s rest =>
    have hs : s = s0 := by simpa using h
    subst hs
    cases rest with
    | nil => rfl
    | cons s2 rest2 =>
      show (s ++ '/' :: joinSlash (s2 :: rest2)).head? = s.head?
      cases s with
      | nil => exact absurd rfl hne
      | cons c cs => rfl

theorem joinSlash_last : ∀ (out : List (List Char)) (sl : List Char),
    out.getLast? = some sl → sl ≠ [] →
    (joinSlash out).getLast? = sl.getLast?
  | [], _, h, _ => by simp at h
  | [s], sl, h, hne => by
    have hs : s = sl := by simpa using h
    subst hs
    rfl
  | s :: s2 :: rest, sl, h, hne => by
    have h2 : (s2 :: rest).getLast? = some sl := by
      rw [← h, List.getLast?_cons_cons]
    show (s ++ '/' :: joinSlash (s2 :: rest)).getLast? = sl.getLast?
    rw [List.getLast?_append_cons]
    have hrec := joinSlash_last (s2 :: rest) sl h2 hne
    rw [← hrec]
    have hjne : joinSlash (s2 :: rest) ≠ [] := by
      intro hnil
      rw [hnil] at hrec
      rcases sl.eq_nil_or_concat with hx | ⟨sl0, c, hx⟩
      · exact hne hx
      · rw [List.concat_eq_append] at hx
        rw [hx] at hrec
        simp at hrec
    rcases (joinSlash (s2 :: rest)).eq_nil_or_concat with hx | ⟨j0, c, hx⟩
    · exact absurd hx hjne
    · rw [List.concat_eq_append] at hx
      rw [hx, show ('/' :: (j0 ++ [c])) = ('/' :: j0) ++ [c] from rfl,
        List.getLast?_concat, List.getLast?_concat]


/-- The rendering `normalize` applies around the collapsed segments: the
leading `/` for absolute paths, the `.` placeholder for an empty relative
result, and the preserved trailing separator. -/
def mkNorm (abs trail : Bool) (out : List (List Char)) : String :=
  if abs then
    String.mk ('/' :: (if 0 < (joinSlash out).length ∧ trail = true then
      joinSlash out ++ ['/'] else joinSlash out))
  else if (joinSlash out).length = 0 then
    (if trail = true then String.mk ['.', '/'] else String.mk ['.'])
  else
    (if trail = true then String.mk (joinSlash out ++ ['/'])
     else String.mk (joinSlash out))

theorem length_mk (l : List Char) : (String.mk l).length = l.length := rfl

theorem mk_append (a b : List Char) : String.mk a ++ String.mk b = String.mk (a ++ b) := rfl

theorem normalize_eval_dec (p dec : String) (hne : ¬ p.length = 0)
    (hdec : decodeURIComponent p = .ok dec) :
    normalize p = .ok (mkNorm
      (decide ((p.toList.head?.map Char.toNat) = some SLASH))
      (decide ((p.toList.getLast?.map Char.toNat) = some SLASH))
      (normSegs (!decide ((p.toList.head?.map Char.toNat) = some SLASH)) []
        (splitChar '/' dec.toList))) := by
  unfold normalize
  rw [if_neg hne, hdec]
  by_cases habs : (p.toList.head?.map Char.toNat) = some SLASH
  · by_cases hlen : (joinSlash (normSegs false [] (splitChar '/' dec.toList))).length = 0
    all_goals
      by_cases htr : (p.toList.getLast?.map Char.toNat) = some SLASH <;>
      simp only [habs, htr, hlen, posixNormalize_eq, mkNorm, decide_True, decide_False,
        Bool.not_true, Bool.not_false, length_mk, mk_append, not_true, not_false_iff,
        and_true, and_false, true_and, false_and, if_true, if_false, not_false_eq_true,
        eq_self_iff_true, Nat.pos_iff_ne_zero, ne_eq, not_not, lt_self_iff_false] <;>
      rfl
  · by_cases hlen : (joinSlash (normSegs true [] (splitChar '/' dec.toList))).length = 0
    all_goals
      by_cases htr : (p.toList.getLast?.map Char.toNat) = some SLASH <;>
      simp only [habs, htr, hlen, posixNormalize_eq, mkNorm, decide_True, decide_False,
        Bool.not_true, Bool.not_false, length_mk, mk_append, not_true, not_false_iff,
        and_true, and_false, true_and, false_and, if_true, if_false, not_false_eq_true,
        eq_self_iff_true, Nat.pos_iff_ne_zero, ne_eq, not_not, lt_self_iff_false] <;>
      rfl


theorem segStep_nil_seg (allow : Bool) (acc : List (List Char)) :
    segStep allow acc [] = acc := by
  rw [segStep, if_pos (Or.inl rfl)]

theorem normSegs_fixT (allow : Bool) (out : List (List Char)) (hno : NormOut allow out) :
    normSegs allow [] (out ++ [[]]) = out := by
  rw [normSegs_append, normSegs_fixpoint allow out hno]
  show segStep allow out [] = out
  exact segStep_nil_seg allow out

theorem normSegs_fixL (allow : Bool) (out : List (List Char)) (hno : NormOut allow out) :
    normSegs allow [] ([] :: out) = out := by
  rw [normSegs, segStep_nil_seg, normSegs_fixpoint allow out hno]

theorem normSegs_fixLT (allow : Bool) (out : List (List Char)) (hno : NormOut allow out) :
    normSegs allow [] ([] :: (out ++ [[]])) = out := by
  rw [normSegs, segStep_nil_seg, normSegs_fixT allow out hno]

theorem joinSlash_head_ne_slash (out : List (List Char)) (hne : out ≠ [])
    (hgood : ∀ s ∈ out, s ≠ [] ∧ '/' ∉ s) (c : Char)
    (hc : (joinSlash out).head? = some c) : c ≠ '/' := by
  cases out with
  | nil => exact absurd rfl hne
  | cons s0 out1 =>
    have h1 := joinSlash_head (s0 :: out1) s0 rfl (hgood s0 (List.mem_cons_self s0 out1)).1
    rw [h1] at hc
    cases s0 with
    | nil => simp at hc
    | cons a b =>
      simp only [List.head?_cons, Option.some.injEq] at hc
      subst hc
      intro heq
      apply (hgood (a :: b) (List.mem_cons_self _ _)).2
      rw [← heq]
      exact List.mem_cons_self a b

theorem joinSlash_last_ne_slash (out : List (List Char)) (hne : out ≠ [])
    (hgood : ∀ s ∈ out, s ≠ [] ∧ '/' ∉ s) (c : Char)
    (hc : (joinSlash out).getLast? = some c) : c ≠ '/' := by
  rcases out.eq_nil_or_concat with h | ⟨out0, sl, h⟩
  · exact absurd h hne
  · rw [List.concat_eq_append] at h
    subst h
    have hsl : (out0 ++ [sl]).getLast? = some sl := List.getLast?_concat _
    have h1 := joinSlash_last (out0 ++ [sl]) sl hsl (hgood sl (by simp)).1
    rw [h1] at hc
    rcases sl.eq_nil_or_concat with hs | ⟨sl0, cl, hs⟩
    · exact absurd hs (hgood sl (by simp)).1
    · rw [List.concat_eq_append] at hs
      rw [hs, List.getLast?_concat] at hc
      injection hc with hc
      subst hc
      intro heq
      apply (hgood sl (by simp)).2
      rw [hs, heq]
      simp


theorem renorm (abs trail : Bool) (out : List (List Char))
    (hgood : ∀ s ∈ out, s ≠ [] ∧ '/' ∉ s)
    (hno : NormOut (!abs) out)
    (hpct : '%' ∉ (mkNorm abs trail out).toList) :
    normalize (mkNorm abs trail out) = .ok (mkNorm abs trail out) := by
  rcases out with _ | ⟨s0, out1⟩
  · cases abs <;> cases trail <;> rfl
  · have hJpos : 0 < (joinSlash (s0 :: out1)).length :=
      joinSlash_length_pos _ (by simp) (fun s hs => (hgood s hs).1)
    obtain ⟨c0, rest, hJ⟩ : ∃ c0 rest, joinSlash (s0 :: out1) = c0 :: rest := by
      cases hJx : joinSlash (s0 :: out1) with
      | nil => rw [hJx] at hJpos; simp at hJpos
      | cons a b => exact ⟨a, b, rfl⟩
    have hc0 : c0 ≠ '/' :=
      joinSlash_head_ne_slash _ (by simp) hgood c0 (by rw [hJ]; rfl)
    obtain ⟨cl, hcl⟩ : ∃ cl, (joinSlash (s0 :: out1)).getLast? = some cl := by
      rw [hJ]
      rcases (c0 :: rest).eq_nil_or_concat with h | ⟨l0, a, h⟩
      · simp at h
      · rw [List.concat_eq_append] at h
        exact ⟨a, by rw [h, List.getLast?_concat]⟩
    have hclne : cl ≠ '/' :=
      joinSlash_last_ne_slash _ (by simp) hgood cl hcl
    have hsplitJ : splitChar '/' (joinSlash (s0 :: out1)) = s0 :: out1 :=
      splitChar_joinSlash _ (by simp) (fun s hs => (hgood s hs).2)
    cases abs <;> cases trail
    · have hq : mkNorm false false (s0 :: out1) =
          String.mk (joinSlash (s0 :: out1)) := by
        unfold mkNorm
        rw [if_neg (by simp), if_neg (by omega), if_neg (by simp)]
      rw [hq] at hpct ⊢
      have hdec' : decodeURIComponent (String.mk (joinSlash (s0 :: out1))) =
          .ok (String.mk (joinSlash (s0 :: out1))) :=
        decodeURIComponent_percent_free _ (by rw [toList_mk]; exact hpct)
      rw [normalize_eval_dec _ _ (by rw [length_mk, hJ]; simp) hdec']
      have habs' : decide (((String.mk (joinSlash (s0 :: out1))).toList.head?.map
          Char.toNat) = some SLASH) = false := by
        apply decide_eq_false
        rw [toList_mk, hJ]
        simp only [List.head?_cons, Option.map_some']
        intro h
        injection h with h
        exact hc0 ((toNat_eq_iff c0 '/').1 h)
      have htr' : decide (((String.mk (joinSlash (s0 :: out1))).toList.getLast?.map
          Char.toNat) = some SLASH) = false := by
        apply decide_eq_false
        rw [toList_mk, hcl]
        simp only [Option.map_some']
        intro h
        injection h with h
        exact hclne ((toNat_eq_iff cl '/').1 h)
      rw [habs', htr', toList_mk, hsplitJ]
      rw [show (!false) = true from rfl]
      rw [normSegs_fixpoint true (s0 :: out1) hno, hq]
    · have hq : mkNorm false true (s0 :: out1) =
          String.mk (joinSlash (s0 :: out1) ++ ['/']) := by
        unfold mkNorm
        rw [if_neg (by simp), if_neg (by omega), if_pos rfl]
      rw [hq] at hpct ⊢
      have hdec' : decodeURIComponent (String.mk (joinSlash (s0 :: out1) ++ ['/'])) =
          .ok (String.mk (joinSlash (s0 :: out1) ++ ['/'])) :=
        decodeURIComponent_percent_free _ (by rw [toList_mk]; exact hpct)
      rw [normalize_eval_dec _ _ (by rw [length_mk]; simp) hdec']
      have habs' : decide (((String.mk (joinSlash (s0 :: out1) ++ ['/'])).toList.head?.map
          Char.toNat) = some SLASH) = false := by
        apply decide_eq_false
        rw [toList_mk, hJ]
        simp only [List.cons_append, List.head?_cons, Option.map_some']
        intro h
        injection h with h
        exact hc0 ((toNat_eq_iff c0 '/').1 h)
      have htr' : decide (((String.mk (joinSlash (s0 :: out1) ++ ['/'])).toList.getLast?.map
          Char.toNat) = some SLASH) = true := by
        apply decide_eq_true
        rw [toList_mk, List.getLast?_concat]
        rfl
      rw [habs', htr', toList_mk, splitChar_append_last, hsplitJ]
      rw [show (!false) = true from rfl]
      rw [normSegs_fixT true (s0 :: out1) hno, hq]
    · have hq : mkNorm true false (s0 :: out1) =
          String.mk ('/' :: joinSlash (s0 :: out1)) := by
        unfold mkNorm
        rw [if_pos rfl, if_neg (by simp)]
      rw [hq] at hpct ⊢
      have hdec' : decodeURIComponent (String.mk ('/' :: joinSlash (s0 :: out1))) =
          .ok (String.mk ('/' :: joinSlash (s0 :: out1))) :=
        decodeURIComponent_percent_free _ (by rw [toList_mk]; exact hpct)
      rw [normalize_eval_dec _ _ (by rw [length_mk]; simp) hdec']
      have habs' : decide (((String.mk ('/' :: joinSlash (s0 :: out1))).toList.head?.map
          Char.toNat) = some SLASH) = true := by
        apply decide_eq_true
        rfl
      have htr' : decide (((String.mk ('/' :: joinSlash (s0 :: out1))).toList.getLast?.map
          Char.toNat) = some SLASH) = false := by
        apply decide_eq_false
        rw [toList_mk, hJ, List.getLast?_cons_cons, ← hJ, hcl]
        simp only [Option.map_some']
        intro h
        injection h with h
        exact hclne ((toNat_eq_iff cl '/').1 h)
      rw [habs', htr', toList_mk]
      rw [show splitChar '/' ('/' :: joinSlash (s0 :: out1)) =
        [] :: splitChar '/' (joinSlash (s0 :: out1)) from by
          rw [splitChar, if_pos rfl]]
      rw [hsplitJ]
      rw [show (!true) = false from rfl]
      rw [normSegs_fixL false (s0 :: out1) hno, hq]
    · have hq : mkNorm true true (s0 :: out1) =
          String.mk ('/' :: (joinSlash (s0 :: out1) ++ ['/'])) := by
        unfold mkNorm
        rw [if_pos rfl, if_pos ⟨hJpos, rfl⟩]
      rw [hq] at hpct ⊢
      have hdec' : decodeURIComponent
          (String.mk ('/' :: (joinSlash (s0 :: out1) ++ ['/']))) =
          .ok (String.mk ('/' :: (joinSlash (s0 :: out1) ++ ['/']))) :=
        decodeURIComponent_percent_free _ (by rw [toList_mk]; exact hpct)
      rw [normalize_eval_dec _ _ (by rw [length_mk]; simp) hdec']
      have habs' : decide (((String.mk ('/' :: (joinSlash (s0 :: out1) ++
          ['/']))).toList.head?.map Char.toNat) = some SLASH) = true := by
        apply decide_eq_true
        rfl
      have htr' : decide (((String.mk ('/' :: (joinSlash (s0 :: out1) ++
          ['/']))).toList.getLast?.map Char.toNat) = some SLASH) = true := by
        apply decide_eq_true
        rw [toList_mk, show ('/' :: (joinSlash (s0 :: out1) ++ ['/'])) =
          ('/' :: joinSlash (s0 :: out1)) ++ ['/'] from rfl, List.getLast?_concat]
        rfl
      rw [habs', htr', toList_mk]
      rw [show splitChar '/' ('/' :: (joinSlash (s0 :: out1) ++ ['/'])) =
        [] :: splitChar '/' (joinSlash (s0 :: out1) ++ ['/']) from by
          rw [splitChar, if_pos rfl]]
      rw [splitChar_append_last, hsplitJ]
      rw [show (!true) = false from rfl]
      rw [normSegs_fixLT false (s0 :: out1) hno, hq]


theorem mkNorm_pct (abs trail : Bool) (out : List (List Char))
    (hJ : '%' ∉ joinSlash out) : '%' ∉ (mkNorm abs trail out).toList := by
  unfold mkNorm
  split
  · rw [toList_mk]
    intro h
    rcases List.mem_cons.1 h with h | h
    · exact absurd h (by decide)
    · split at h
      · rcases List.mem_append.1 h with h | h
        · exact hJ h
        · exact absurd (List.mem_singleton.1 h) (by decide)
      · exact hJ h
  · split
    · split <;> (rw [toList_mk]; decide)
    · split
      · rw [toList_mk]
        intro h
        rcases List.mem_append.1 h with h | h
        · exact hJ h
        · exact absurd (List.mem_singleton.1 h) (by decide)
      · rw [toList_mk]
        exact hJ

theorem splitChar_mkNorm_abs (trail : Bool) (out : List (List Char))
    (hgood : ∀ s ∈ out, s ≠ [] ∧ '/' ∉ s) :
    ∀ s ∈ splitChar '/' (mkNorm true trail out).toList, s = [] ∨ s ∈ out := by
  rcases out with _ | ⟨s0, out1⟩
  · cases trail
    · intro s hs
      rw [show splitChar '/' (mkNorm true false []).toList = [[], []] from rfl] at hs
      rcases List.mem_cons.1 hs with h | h
      · exact Or.inl h
      · exact Or.inl (List.mem_singleton.1 h)
    · intro s hs
      rw [show splitChar '/' (mkNorm true true []).toList = [[], []] from rfl] at hs
      rcases List.mem_cons.1 hs with h | h
      · exact Or.inl h
      · exact Or.inl (List.mem_singleton.1 h)
  · have hJpos : 0 < (joinSlash (s0 :: out1)).length :=
      joinSlash_length_pos _ (by simp) (fun s hs => (hgood s hs).1)
    have hsplitJ : splitChar '/' (joinSlash (s0 :: out1)) = s0 :: out1 :=
      splitChar_joinSlash _ (by simp) (fun s hs => (hgood s hs).2)
    cases trail
    · have hq : (mkNorm true false (s0 :: out1)).toList =
          '/' :: joinSlash (s0 :: out1) := by
        unfold mkNorm
        rw [if_pos rfl, if_neg (by simp), toList_mk]
      intro s hs
      rw [hq] at hs
      rw [show splitChar '/' ('/' :: joinSlash (s0 :: out1)) =
        [] :: splitChar '/' (joinSlash (s0 :: out1)) from by
          rw [splitChar, if_pos rfl]] at hs
      rw [hsplitJ] at hs
      rcases List.mem_cons.1 hs with h | h
      · exact Or.inl h
      · exact Or.inr h
    · have hq : (mkNorm true true (s0 :: out1)).toList =
          '/' :: (joinSlash (s0 :: out1) ++ ['/']) := by
        unfold mkNorm
        rw [if_pos rfl, if_pos ⟨hJpos, rfl⟩, toList_mk]
      intro s hs
      rw [hq] at hs
      rw [show splitChar '/' ('/' :: (joinSlash (s0 :: out1) ++ ['/'])) =
        [] :: splitChar '/' (joinSlash (s0 :: out1) ++ ['/']) from by
          rw [splitChar, if_pos rfl]] at hs
      rw [splitChar_append_last, hsplitJ] at hs
      rcases List.mem_cons.1 hs with h | h
      · exact Or.inl h
      · rcases List.mem_append.1 h with h | h
        · exact Or.inr h
        · exact Or.inl (List.mem_singleton.1 h)


/-- C6: the spec claims normalize(normalize(p)) == normalize(p) for every
path, including paths containing percent-escaped characters.  Corrected:
idempotence holds for every percent-free input on which normalize succeeds
(the result is a fixed point), but a path whose collapse produces a literal
percent sign (for example from the escape %25) fails to re-normalize,
because the second pass rejects the now-malformed escape. -/
theorem normalize_idem_percent_free (p q : String) (hp : '%' ∉ p.toList)
    (hq : normalize p = .ok q) : normalize q = .ok q := by
  by_cases h0 : p.length = 0
  · have hq2 : q = "." := by
      unfold normalize at hq
      rw [if_pos h0] at hq
      injection hq with hq
      exact hq.symm
    rw [hq2]
    rfl
  · have hdec := decodeURIComponent_percent_free p hp
    have heval := normalize_eval_dec p p h0 hdec
    rw [heval] at hq
    injection hq with hq
    rw [← hq]
    have hsep : ∀ s ∈ splitChar '/' p.toList, '/' ∉ s :=
      fun s hs => mem_splitChar_no_sep '/' p.toList s hs
    apply renorm
    · exact normSegs_good _ _ [] (by simp) hsep
    · exact normSegs_normOut _ _ [] ⟨0, [], rfl, fun hk => absurd rfl hk, by simp⟩ hsep
    · apply mkNorm_pct
      intro hc
      rcases mem_joinSlash _ '%' hc with hc2 | ⟨s, hs, hcs⟩
      · exact absurd hc2 (by decide)
      · rcases normSegs_mem _ _ [] s hs with h2 | h2
        · simp at h2
        · exact hp (mem_of_mem_splitChar '/' p.toList s '%' h2 hcs)

/-- C6 counterexample: normalize("a%25") succeeds with "a%", but running
normalize again on that output raises a URIError (malformed escape), so
normalize(normalize(p)) differs from normalize(p) when percent-escapes are
involved. -/
theorem normalize_not_idem_on_escapes :
    normalize "a%25" = .ok "a%" ∧ normalize "a%" = .error () := ⟨rfl, rfl⟩

theorem normalize_idem_witness :
    '%' ∉ "a/b/../c".toList ∧ normalize "a/c" = .ok "a/c" :=
  ⟨by decide, normalize_idem_percent_free "a/b/../c" "a/c" (by decide) rfl⟩


/-- C8: normalize collapses `..` against preceding real segments, keeps an
uncollapsible leading `..` for relative paths, and drops it for absolute
paths: the spec's four examples hold, and in general the output of a
successful normalize of an absolute path (leading `/`) contains no `..`
segment. -/
theorem normalize_collapse_rules :
    normalize "/a/b/../c" = .ok "/a/c" ∧
    normalize "a/b/../../c" = .ok "c" ∧
    normalize "../a" = .ok "../a" ∧
    normalize "/../a" = .ok "/a" ∧
    ∀ p q : String, p.toList.head? = some '/' → normalize p = .ok q →
      noDotDotSeg q := by
  refine ⟨rfl, rfl, rfl, rfl, ?_⟩
  intro p q hhead h
  have h0 : ¬ p.length = 0 := by
    intro h0
    have hnil : p.toList = [] := List.length_eq_zero.1 h0
    rw [hnil] at hhead
    simp at hhead
  cases hd : decodeURIComponent p with
  | error e =>
    unfold normalize at h
    rw [if_neg h0, hd] at h
    exact Except.noConfusion h
  | ok dec =>
    have heval := normalize_eval_dec p dec h0 hd
    rw [heval] at h
    injection h with h
    have habs : decide ((p.toList.head?.map Char.toNat) = some SLASH) = true := by
      apply decide_eq_true
      rw [hhead]
      rfl
    rw [habs] at h
    rw [show (!true) = false from rfl] at h
    have hsep : ∀ s ∈ splitChar '/' dec.toList, '/' ∉ s :=
      fun s hs => mem_splitChar_no_sep '/' dec.toList s hs
    have hgood : ∀ s ∈ normSegs false [] (splitChar '/' dec.toList),
        s ≠ [] ∧ '/' ∉ s := normSegs_good false _ [] (by simp) hsep
    have hno : NormOut false (normSegs false [] (splitChar '/' dec.toList)) :=
      normSegs_normOut false _ [] ⟨0, [], rfl, fun hk => absurd rfl hk, by simp⟩ hsep
    rw [← h]
    unfold noDotDotSeg
    intro hdd
    rcases splitChar_mkNorm_abs _ _ hgood ['.', '.'] hdd with hx | hx
    · exact absurd hx (by decide)
    · obtain ⟨k, reals, hout, hk, hreals⟩ := hno
      have hk0 : k = 0 := by
        by_contra hkne
        exact Bool.noConfusion (hk hkne)
      rw [hk0, List.replicate_zero, List.nil_append] at hout
      rw [hout] at hx
      exact (hreals _ hx).2.2.1 rfl

theorem normalize_collapse_rules_witness :
    ("/../a" : String).toList.head? = some '/' ∧ noDotDotSeg "/a" :=
  ⟨rfl, normalize_collapse_rules.2.2.2.2 "/../a" "/a" rfl rfl⟩

end RefBundler
